import Mathlib

/-!
Shallow embedding of the rust-lexical number-parsing engine:
the integer parser (lexical-core/src/atoi.rs), the mantissa, exponent and
float parsers, the exact/extended/bigfloat driver and the extended-precision
error predicate (src/atof/algorithm/precise.rs).

Bytes are lists of natural numbers (u8 values); positions are indices into
the original byte list (the Rust code returns pointers, converted to
distances by the callers).  Machine integers are modelled as Nat/Int with
explicit bound checks where the code uses checked or wrapping arithmetic.
-/

namespace RustLexical

/-- Decidable equality for `Except`, used to evaluate the parsers on
concrete inputs. -/
instance exceptDecEq {ε α : Type} [DecidableEq ε] [DecidableEq α] :
    DecidableEq (Except ε α) := fun x y =>
  match x, y with
  | .ok a, .ok b => if h : a = b then isTrue (by rw [h]) else isFalse (by simp [h])
  | .ok _, .error _ => isFalse (by simp)
  | .error _, .ok _ => isFalse (by simp)
  | .error e, .error f => if h : e = f then isTrue (by rw [h]) else isFalse (by simp [h])

/-- Error codes reported by the integer and exponent parsers (util::ErrorCode). -/
inductive ErrorCode where
  | empty
  | emptyExponent
  | invalidDigit
  | overflow
  | underflow
deriving DecidableEq, Repr

/-- Sign of the number being parsed (util::Sign). -/
inductive Sign where
  | positive
  | negative
deriving DecidableEq, Repr

/-- Byte-to-digit decoding: the `to_digit!` macro of atoi.rs, which is
Rust's `(c as char).to_digit(radix)`: bytes `'0'..='9'` decode to 0..9,
`'A'..='Z'` and `'a'..='z'` to 10..35, and the digit is valid only when
it is `< radix`. -/
def to_digit (radix c : ℕ) : Option ℕ :=
  let d : Option ℕ :=
    if 48 ≤ c ∧ c ≤ 57 then some (c - 48)
    else if 65 ≤ c ∧ c ≤ 90 then some (c - 55)
    else if 97 ≤ c ∧ c ≤ 122 then some (c - 87)
    else none
  match d with
  | some v => if v < radix then some v else none
  | none => none

/-- Checked multiplication `v.checked_mul(radix)` for an integer type whose
value range is the interval [lo, hi]. -/
def checkedMul (lo hi : ℤ) (v : ℤ) (radix : ℕ) : Option ℤ :=
  if lo ≤ v * radix ∧ v * radix ≤ hi then some (v * radix) else none

/-- Checked addition `v.checked_add(d)` for the range [lo, hi]. -/
def checkedAdd (lo hi : ℤ) (v : ℤ) (d : ℕ) : Option ℤ :=
  if lo ≤ v + d ∧ v + d ≤ hi then some (v + d) else none

/-- Checked subtraction `v.checked_sub(d)` for the range [lo, hi]. -/
def checkedSub (lo hi : ℤ) (v : ℤ) (d : ℕ) : Option ℤ :=
  if lo ≤ v - d ∧ v - d ≤ hi then some (v - d) else none

/-- The error code used by the `standalone!` macro: `Overflow` for the
positive (checked_add) instantiation, `Underflow` for the negative
(checked_sub) one. -/
def errFor : Sign → ErrorCode
  | .positive => .overflow
  | .negative => .underflow

/-- The digit loop of the `standalone!` macro (atoi.rs lines 73-90):
for each byte, decode a digit (a non-digit stops the loop and returns
success at the current byte); multiply the accumulator by the radix with
`checked_mul`, then add (positive sign) or subtract (negative sign) the
digit with a checked operation; either failure returns the sign's error
code at the current byte.  `i` is the index of the byte at the head of
the remaining list. -/
def standaloneLoop (lo hi : ℤ) (radix : ℕ) (s : Sign) :
    ℤ → List ℕ → ℕ → (Except ErrorCode ℤ) × ℕ
  | v, [], i => (Except.ok v, i)
  | v, c :: tl, i =>
    match to_digit radix c with
    | none => (Except.ok v, i)
    | some d =>
      match checkedMul lo hi v radix with
      | none => (Except.error (errFor s), i)
      | some w =>
        match (match s with
               | Sign.positive => checkedAdd lo hi w d
               | Sign.negative => checkedSub lo hi w d) with
        | none => (Except.error (errFor s), i)
        | some v2 => standaloneLoop lo hi radix s v2 tl (i + 1)

/-- Sign handling of `standalone` (atoi.rs lines 103-107): a leading `'+'`
is consumed; `'-'` is consumed only when the type is signed; anything else
leaves the whole input as the digit list.  Returns the sign, the digit
slice and the index at which it starts. -/
def signSplit (bytes : List ℕ) (is_signed : Bool) : Sign × List ℕ × ℕ :=
  match bytes with
  | [] => (Sign.positive, [], 0)
  | b0 :: tl =>
    if b0 = 43 then (Sign.positive, tl, 1)
    else if b0 = 45 ∧ is_signed = true then (Sign.negative, tl, 1)
    else (Sign.positive, bytes, 0)

/-- The standalone atoi processor (atoi.rs lines 93-123), for an integer
type with value range [lo, hi].  Returns the parsed value or error code,
together with the byte index the returned pointer corresponds to. -/
def standalone (lo hi : ℤ) (radix : ℕ) (bytes : List ℕ) (is_signed : Bool) :
    (Except ErrorCode ℤ) × ℕ :=
  match bytes with
  | [] => (Except.error ErrorCode.empty, 0)
  | _ :: _ =>
    let p := signSplit bytes is_signed
    if p.2.1.isEmpty then (Except.error ErrorCode.empty, p.2.2)
    else standaloneLoop lo hi radix p.1 0 p.2.1 p.2.2

/-- One accumulator step as the specification describes it: a checked
multiply of the accumulator by the radix followed by a checked add
(positive sign) or checked subtract (negative sign) of the digit.
This mirrors the `add_digit!` macro of atoi.rs. -/
def chkStep (lo hi : ℤ) (radix : ℕ) (s : Sign) (v : ℤ) (d : ℕ) : Option ℤ :=
  match checkedMul lo hi v radix with
  | none => none
  | some w =>
    match s with
    | Sign.positive => checkedAdd lo hi w d
    | Sign.negative => checkedSub lo hi w d

/-- Specification-side fold: run the checked accumulator step over a byte
list, failing on the first invalid digit or on the first failed checked
operation. -/
def chkFold (lo hi : ℤ) (radix : ℕ) (s : Sign) : ℤ → List ℕ → Option ℤ
  | v, [] => some v
  | v, c :: tl =>
    match to_digit radix c with
    | none => none
    | some d =>
      match chkStep lo hi radix s v d with
      | none => none
      | some v2 => chkFold lo hi radix s v2 tl

/-- Lower bound of the i32 value range. -/
def i32lo : ℤ := -(2 ^ 31)

/-- Upper bound of the i32 value range. -/
def i32hi : ℤ := 2 ^ 31 - 1

/-- Index of the first byte that is not a valid digit, starting the scan
at index `i`; equals the end index when all remaining bytes are digits.
This models `iter.find(|&c| is_not_digit_char(*c, radix))` of the
`standalone_exponent!` macro together with the fall-through to the end
of the input. -/
def firstNonDigit (radix : ℕ) : List ℕ → ℕ → ℕ
  | [], i => i
  | c :: tl, i => if (to_digit radix c).isSome then firstNonDigit radix tl (i + 1) else i

/-- The digit loop of the `standalone_exponent!` macro (atoi.rs lines
217-238): a non-digit stops with success; a failed checked step assigns
the default value (`i32::MAX` or `i32::MIN`) and consumes the remaining
digit bytes, returning at the first non-digit (or the end). -/
def expLoop (radix : ℕ) (s : Sign) (dflt : ℤ) : ℤ → List ℕ → ℕ → ℤ × ℕ
  | v, [], i => (v, i)
  | v, c :: tl, i =>
    match to_digit radix c with
    | none => (v, i)
    | some d =>
      match chkStep i32lo i32hi radix s v d with
      | some v2 => expLoop radix s dflt v2 tl (i + 1)
      | none => (dflt, firstNonDigit radix tl (i + 1))

/-- The standalone exponent parser (atoi.rs lines 242-271): sign split
(`'-'` always accepted), `EmptyExponent` on empty input or isolated sign,
then the saturating digit loop with default `i32::max_value()` for the
positive sign and `i32::min_value()` for the negative sign. -/
def standalone_exponent (radix : ℕ) (bytes : List ℕ) :
    Except (ErrorCode × ℕ) (ℤ × ℕ) :=
  match bytes with
  | [] => Except.error (ErrorCode.emptyExponent, 0)
  | _ :: _ =>
    let p := signSplit bytes true
    if p.2.1.isEmpty then Except.error (ErrorCode.emptyExponent, p.2.2)
    else
      match p.1 with
      | Sign.positive => Except.ok (expLoop radix Sign.positive (2 ^ 31 - 1) 0 p.2.1 p.2.2)
      | Sign.negative => Except.ok (expLoop radix Sign.negative (-(2 ^ 31)) 0 p.2.1 p.2.2)

/-- Modelled from the spec: the checked mantissa accumulator
`atoi::checked` used by parse_mantissa (precise.rs lines 134, 150, 152;
the function itself is outside the scanned sources).  Per the
specification, digits are accumulated by checked multiply-add into an
unsigned word with exclusive bound `cap` (2^64 or 2^128); once a digit
cannot be absorbed, the truncation count is raised and no further digits
are accumulated, though all remaining digits are still consumed.  Returns
(value, truncated count, number of digit bytes consumed); the consumed
count is the length of the maximal valid-digit prefix.  The combined
test `v * radix + d < cap` holds exactly when both `checked_mul` and the
following `checked_add` succeed. -/
def checkedCore (cap radix : ℕ) : ℕ → ℕ → List ℕ → ℕ × ℕ × ℕ
  | v, t, [] => (v, t, 0)
  | v, t, c :: tl =>
    match to_digit radix c with
    | none => (v, t, 0)
    | some d =>
      if t = 0 ∧ v * radix + d < cap then
        let r := checkedCore cap radix (v * radix + d) 0 tl
        (r.1, r.2.1, r.2.2 + 1)
      else
        let r := checkedCore cap radix v (t + 1) tl
        (r.1, r.2.1, r.2.2 + 1)

/-- Saturating conversion of a usize to i32, `try_i32_or_max` (clamps at
`i32::max_value()`). -/
def sat31 (n : ℕ) : ℤ := min (n : ℤ) (2 ^ 31 - 1)

/-- The mantissa parser, `parse_mantissa` of precise.rs (lines 119-177):
trim leading zeros, read integral digits with the checked accumulator,
then handle the optional fraction.  Returns (mantissa, dot shift,
end position, truncated flag). -/
def parse_mantissa (cap radix : ℕ) (bytes : List ℕ) : ℕ × ℤ × ℕ × Bool :=
  let zeros := bytes.takeWhile (fun c => c = 48)
  let rest := bytes.dropWhile (fun c => c = 48)
  let r1 := checkedCore cap radix 0 0 rest
  let m1 := r1.1
  let t1 := r1.2.1
  let n1 := r1.2.2
  let afterInt := rest.drop n1
  if afterInt.head? = some 46 ∧ t1 = 0 then
    let frac := afterInt.tail
    if m1 = 0 then
      -- Mantissa still zero: also trim leading zeros of the fraction.
      let z2 := (frac.takeWhile (fun c => c = 48)).length
      let r2 := checkedCore cap radix 0 0 (frac.drop z2)
      -- dot_shift = distance(f, tup.0) - tup.1, measured from just past the dot.
      (r2.1, sat31 (z2 + r2.2.2) - sat31 r2.2.1,
       zeros.length + n1 + 1 + z2 + r2.2.2, decide (r2.2.1 ≠ 0))
    else
      let r2 := checkedCore cap radix m1 0 frac
      (r2.1, sat31 r2.2.2 - sat31 r2.2.1,
       zeros.length + n1 + 1 + r2.2.2, decide (r2.2.1 ≠ 0))
  else if afterInt.head? = some 46 then
    -- Integral overflow occurred; skip the fractional digits but factor
    -- them into the end position.
    let frac := afterInt.tail
    let k := (frac.takeWhile (fun c => (to_digit radix c).isSome)).length
    (m1, -sat31 t1, zeros.length + n1 + 1 + k, true)
  else
    (m1, -sat31 t1, zeros.length + n1, decide (t1 ≠ 0))

/-- Saturating exponent accumulation step used by the old-generation
exponent parser: positive accumulation clamped at `i32::max_value()`.
Returns the value and the number of digit bytes consumed. -/
def expSatLoop (radix : ℕ) : ℕ → List ℕ → ℕ × ℕ
  | v, [] => (v, 0)
  | v, c :: tl =>
    match to_digit radix c with
    | none => (v, 0)
    | some d =>
      let r := expSatLoop radix (min (v * radix + d) (2 ^ 31 - 1)) tl
      (r.1, r.2 + 1)

/-- Modelled from the spec: `parse_exponent` called by parse_float
(precise.rs line 226; the function itself is outside the scanned
sources).  Per the specification the exponent marker is `e`/`E` for
radix < 15 and `'^'` for radix ≥ 15; then an optional sign and digits
accumulated into an i32 that saturates on overflow; the in-repository
tests pin saturation to `i32::max_value()` for a positive sign and
`-i32::max_value()` for a negative one, and an absent marker yields
exponent 0 with no bytes consumed.  Returns (exponent, consumed count). -/
def parse_exponent (radix : ℕ) (bytes : List ℕ) : ℤ × ℕ :=
  match bytes with
  | [] => (0, 0)
  | c :: tl =>
    let isMarker : Bool := if radix < 15 then decide (c = 101 ∨ c = 69) else decide (c = 94)
    if isMarker then
      match tl with
      | [] => (0, 1)
      | c2 :: tl2 =>
        if c2 = 43 then
          let r := expSatLoop radix 0 tl2
          ((r.1 : ℤ), 2 + r.2)
        else if c2 = 45 then
          let r := expSatLoop radix 0 tl2
          (-(r.1 : ℤ), 2 + r.2)
        else
          let r := expSatLoop radix 0 tl
          ((r.1 : ℤ), 1 + r.2)
    else (0, 0)

/-- Modelled from the spec: `normalize_exponent` (precise.rs line 227;
the function itself is outside the scanned sources).  The data model
defines the effective exponent as parsed exponent minus dot shift, and
the in-repository parse_float tests pin this sign convention. -/
def normalize_exponent (exponent : ℤ) (dot_shift : ℤ) : ℤ :=
  exponent - dot_shift

/-- Division loop of `normalize_mantissa`: divide the mantissa by `p`
(and bump the exponent by `bump`) while it is at least `p` and divisible
by `p`.  Written with explicit fuel (initialised to the mantissa, which
bounds the number of iterations); the extra guard `2 ≤ p` only rules out
the non-terminating radix-0/1 cases, which the source excludes by
assertion. -/
def divLoopF (p : ℕ) (bump : ℤ) : ℕ → ℕ → ℤ → ℕ × ℤ
  | 0, m, e => (m, e)
  | fuel + 1, m, e =>
    if 2 ≤ p ∧ p ≤ m ∧ m % p = 0 then divLoopF p bump fuel (m / p) (e + bump)
    else (m, e)

/-- The `normalize_mantissa` routine of precise.rs (lines 183-207):
power-reduce by radix^4, then radix^2, then once by the radix, moving
removed factors into the exponent. -/
def normalize_mantissa (m : ℕ) (radix : ℕ) (e : ℤ) : ℕ × ℤ :=
  let base2 := radix * radix
  let base4 := base2 * base2
  let r4 := divLoopF base4 4 m m e
  let r2 := divLoopF base2 2 r4.1 r4.1 r4.2
  if r2.1 % radix = 0 then (r2.1 / radix, r2.2 + 1) else r2

/-- The `parse_float` routine of precise.rs (lines 221-230): parse the
mantissa, parse the exponent from the stop position, fold the dot shift
into the exponent and normalize the mantissa. -/
def parse_float (cap radix : ℕ) (bytes : List ℕ) : ℕ × ℤ × ℕ × Bool :=
  let rm := parse_mantissa cap radix bytes
  let re := parse_exponent radix (bytes.drop rm.2.2.1)
  let e := normalize_exponent re.1 rm.2.1
  let rn := normalize_mantissa rm.1 radix e
  (rn.1, rn.2, rm.2.2.1 + re.2, rm.2.2.2)

/-- The `pow2_exponent` table of precise.rs (lines 237-246). -/
def pow2_exponent (base : ℕ) : ℤ :=
  match base with
  | 2 => 1
  | 4 => 2
  | 8 => 3
  | 16 => 4
  | 32 => 5
  | _ => 0

/-- Bit length of a 64-bit word computed with explicit fuel;
`bitsAux 128 m` equals `64 - m.leading_zeros()` for any `m < 2^64`. -/
def bitsAux : ℕ → ℕ → ℕ
  | 0, _ => 0
  | fuel + 1, m => if m = 0 then 0 else bitsAux fuel (m / 2) + 1

/-- The value `64 - mantissa.leading_zeros()` computed in `is_halfway`. -/
def bits64 (m : ℕ) : ℕ := bitsAux 128 m

/-- Trailing-zero count with explicit fuel; `tzAux 64 m` equals
`u64::trailing_zeros(m)` for any `m < 2^64` (64 for m = 0). -/
def tzAux : ℕ → ℕ → ℕ
  | 0, _ => 0
  | fuel + 1, m => if m % 2 = 0 then tzAux fuel (m / 2) + 1 else 0

/-- The value `mantissa.trailing_zeros()` used by `is_halfway`. -/
def tz64 (m : ℕ) : ℕ := tzAux 64 m

/-- The `is_halfway` predicate of precise.rs (lines 250-261): the
mantissa straddles a halfway point of the target float exactly when
there are MANTISSA_SIZE + 2 bits between its highest and lowest set
bits. -/
def is_halfway (msize : ℤ) (m : ℕ) : Bool :=
  decide ((bits64 m : ℤ) - (tz64 m : ℤ) = msize + 2)

/-- Which conversion path the float driver `to_native` commits to. -/
inductive FloatPath where
  | zero
  | bigfloatHalfway
  | pow2Exact
  | exact
  | extended
  | lossyExtended
  | bigfloat
deriving DecidableEq, Repr

/-- Control flow of the driver `to_native` of precise.rs (lines 519-572),
instrumented to report which conversion path produces the result.  The
validity flags of the non-power-of-two exact path (`to_exact`) and of the
extended path (`to_extended`) are passed in as oracles since only their
use as branch conditions matters here; every other branch condition is
computed from the parse itself. -/
def toNativePath (msize : ℤ) (exactValid : ℕ → ℤ → Bool)
    (extendedValid : ℕ → ℤ → Bool → Bool) (lossy : Bool)
    (radix : ℕ) (bytes : List ℕ) : FloatPath :=
  let r := parse_float (2 ^ 64) radix bytes
  let mantissa := r.1
  let exponent := r.2.1
  let truncated := r.2.2.2
  if mantissa = 0 then FloatPath.zero
  else if pow2_exponent radix ≠ 0 then
    if truncated = true ∧ is_halfway msize mantissa = true then FloatPath.bigfloatHalfway
    else FloatPath.pow2Exact
  else if truncated = false ∧ exactValid mantissa exponent = true then FloatPath.exact
  else if extendedValid mantissa exponent truncated = true then FloatPath.extended
  else if lossy then FloatPath.lossyExtended
  else FloatPath.bigfloat

/-- An 80-bit extended float: a u64 fraction and a binary exponent
(float::ExtendedFloat with M = u64). -/
structure ExtFloat where
  frac : ℕ
  exp : ℤ
deriving DecidableEq, Repr

/-- The full error scale of the u64 FloatErrors implementation
(precise.rs lines 362-364). -/
def error_scale : ℕ := 8

/-- Half the error scale (precise.rs lines 367-369). -/
def error_halfscale : ℕ := error_scale / 2

/-- Modelled from the spec: `lower_n_mask(n) = (1 << n) - 1`, the mask of
the lower n bits (the helper lives outside the scanned sources; n = 64
gives the full u64 mask). -/
def lower_n_mask (n : ℕ) : ℕ := if 64 ≤ n then 2 ^ 64 - 1 else 2 ^ n - 1

/-- Modelled from the spec: `lower_n_halfway(n) = 1 << (n - 1)`, the
halfway point of the lower n bits, 0 for n = 0 (the helper lives outside
the scanned sources). -/
def lower_n_halfway (n : ℕ) : ℕ := if n = 0 then 0 else 2 ^ (n - 1)

/-- Reinterpretation of a u64 bit pattern as an i64 (`as_i64`). -/
def toI64 (x : ℕ) : ℤ := if x < 2 ^ 63 then (x : ℤ) else (x : ℤ) - 2 ^ 64

/-- Two's-complement wrap-around of i64 arithmetic, used for
`wrapping_add` and `wrapping_sub`. -/
def wrap64 (z : ℤ) : ℤ := (z + 2 ^ 63) % 2 ^ 64 - 2 ^ 63

/-- The u64 accuracy predicate `FloatErrors::error_is_accurate` of
precise.rs (lines 372-411), parametrised by the target float's
MANTISSA_SIZE `msize` and EXPONENT_BIAS `ebias` (52 and 1075 for f64,
23 and 150 for f32).  `count` is the accumulated error counter and `fp`
the extended float.  The source's `fp.frac & mask` is written as
reduction modulo mask + 1, which is the same operation because the mask
consists of the low bits. -/
def error_is_accurate (msize ebias : ℤ) (count : ℕ) (fp : ExtFloat) : Bool :=
  let bias := -(ebias - msize)
  let denormal_exp := bias - 63
  let extrabits : ℤ :=
    if fp.exp ≤ denormal_exp then 64 - msize + denormal_exp - fp.exp
    else 63 - msize
  if 65 < extrabits then true
  else if extrabits = 65 then decide (fp.frac + count < 2 ^ 64)
  else
    let mask := lower_n_mask extrabits.toNat
    let halfway := lower_n_halfway extrabits.toNat
    let extra := fp.frac % (mask + 1)
    let cmp1 := decide (wrap64 (toI64 halfway - toI64 count) < toI64 extra)
    let cmp2 := decide (toI64 extra < wrap64 (toI64 halfway + toI64 count))
    !(cmp1 && cmp2)

/-- Modelled from the spec: the cached-powers table provider for one
radix (the ModeratePathPowers tables live outside the scanned sources).
Only the shape matters: a bias and step for indexing, small powers as
plain integers and as extended floats, and large powers as extended
floats. -/
structure Powers where
  bias : ℤ
  step : ℤ
  smallInt : List ℕ
  small : List ExtFloat
  large : List ExtFloat

/-- Normalization shift of an extended-float fraction: the number of
left shifts until the top bit (bit 63) is set. -/
def normShift (frac : ℕ) : ℕ := 64 - bits64 frac

/-- Modelled from the spec: `ExtendedFloat::normalize` (outside the
scanned sources) shifts the fraction left until its top bit is set,
lowering the exponent by the shift, and returns the shift count. -/
def normalizeExt (fp : ExtFloat) : ExtFloat × ℕ :=
  let s := normShift fp.frac
  (⟨fp.frac * 2 ^ s, fp.exp - s⟩, s)

/-- Modelled from the spec: the full 80x80 multiplication
`ExtendedFloat::imul` (outside the scanned sources): the 128-bit product
of the fractions keeps its high 64 bits with the discarded half rounded,
and the exponents add together with the 64-bit scale. -/
def mulExt (a b : ExtFloat) : ExtFloat :=
  ⟨(a.frac * b.frac + 2 ^ 63) / 2 ^ 64, a.exp + b.exp + 64⟩

/-- In-range branch of `multiply_exponent_extended` (precise.rs lines
456-489), instrumented to also return the error counter and the final
normalization shift.  The error counter starts at half-scale when the
mantissa was truncated; the small-power multiply adds half-scale only
when the direct integer multiply overflows; the large-power multiply
adds one unit when the counter is already positive, plus half-scale; the
final normalization scales the counter by two to the shift. -/
def mulExpExtCore (P : Powers) (fp : ExtFloat) (smallIdx largeIdx : ℕ)
    (truncated : Bool) : ExtFloat × ℕ × ℕ :=
  let errors0 : ℕ := if truncated then error_halfscale else 0
  let si := P.smallInt.getD smallIdx 0
  let r1 : ExtFloat × ℕ :=
    if 2 ^ 64 ≤ fp.frac * si then
      (mulExt (normalizeExt fp).1 (P.small.getD smallIdx ⟨0, 0⟩),
       errors0 + error_halfscale)
    else
      ((normalizeExt ⟨fp.frac * si, fp.exp⟩).1, errors0)
  let fp2 := mulExt r1.1 (P.large.getD largeIdx ⟨0, 0⟩)
  let errors2 := r1.2 + (if 0 < r1.2 then 1 else 0) + error_halfscale
  let rn := normalizeExt fp2
  (rn.1, errors2 * 2 ^ rn.2, rn.2)

/-- The `multiply_exponent_extended` routine of precise.rs (lines
440-491) for the u64 mantissa: bias the exponent by the table, return
zero below the table and infinity beyond it, and otherwise run the two
cached-power multiplications followed by the accuracy predicate. -/
def multiply_exponent_extended (msize ebias : ℤ) (P : Powers) (fp : ExtFloat)
    (exponent : ℤ) (truncated : Bool) : ExtFloat × Bool :=
  let e := exponent + P.bias
  if e < 0 then (⟨0, 0⟩, true)
  else if P.large.length ≤ (e / P.step).toNat then (⟨2 ^ 63, 0x7FF⟩, true)
  else
    let r := mulExpExtCore P fp (e % P.step).toNat (e / P.step).toNat truncated
    (r.1, error_is_accurate msize ebias r.2.1 r.1)

/-- Concrete 65-digit radix-2 input exercising the truncated-halfway
special case: a one, 23 zeros, a one, then 40 zeros.  The first 64
digits fill the u64 mantissa, the 65th digit is truncated, and the
normalized mantissa 2^24 + 1 matches the f32 halfway signature. -/
def c6bytes : List ℕ :=
  49 :: (List.replicate 23 48 ++ (49 :: (List.replicate 39 48 ++ [48])))

/-- Specification-side predicate: the first byte of the input is a sign
the parser consumes or a valid digit of the radix. -/
def firstByteConsumable (radix : ℕ) (bytes : List ℕ) (is_signed : Bool) : Bool :=
  match bytes with
  | [] => false
  | c :: _ => decide (c = 43) || (decide (c = 45) && is_signed) || (to_digit radix c).isSome

/-- Value of a byte as a digit, defaulting to 0 for non-digits (only
applied to valid digit bytes in the statements below). -/
def dval (radix c : ℕ) : ℕ := (to_digit radix c).getD 0

/-- Arithmetic value of a digit-byte list in the given radix, folded
onto an initial accumulator: the exact value the specification calls
"the exact arithmetic value of all consumed digit bytes". -/
def natFold (radix : ℕ) (v : ℕ) (l : List ℕ) : ℕ :=
  l.foldl (fun a c => a * radix + dval radix c) v

/-- A byte list with the decimal point (byte 46) elided. -/
def elideDot (l : List ℕ) : List ℕ := l.filter (fun c => c ≠ 46)

/-- Number of bytes after the decimal point (byte 46) in a byte list;
0 when there is no decimal point. -/
def fracLen (l : List ℕ) : ℕ := ((l.dropWhile (fun c => c ≠ 46)).tail).length

-- Sanity checks for the extended path.
example : error_is_accurate 52 1075 0 ⟨2 ^ 63, 0⟩ = true := by decide
example : error_is_accurate 52 1075 4 ⟨1024, 0⟩ = false := by decide
example : error_is_accurate 52 1075 4 ⟨1020, 0⟩ = true := by decide
example : error_is_accurate 52 1075 5 ⟨2 ^ 63, -1138⟩ = true := by decide
example :
    mulExpExtCore ⟨0, 8, [1], [⟨2 ^ 63, -63⟩], [⟨2 ^ 63, -63⟩]⟩ ⟨3, 0⟩ 0 0 true =
      (⟨3 * 2 ^ 62, -62⟩, 18, 1) := by decide

example : standalone 0 255 10 [50, 53, 53] false = (Except.ok 255, 3) := by decide
example : standalone 0 255 10 [50, 53, 54] false = (Except.error ErrorCode.overflow, 2) := by
  decide
example : standalone (-(2 ^ 7)) (2 ^ 7 - 1) 10 [45, 49, 50, 56] true =
    (Except.ok (-128), 4) := by decide
example : standalone (-(2 ^ 7)) (2 ^ 7 - 1) 10 [45, 49, 50, 57] true =
    (Except.error ErrorCode.underflow, 3) := by decide
example : standalone 0 255 10 [43] false = (Except.error ErrorCode.empty, 1) := by decide
example : standalone 0 255 10 [97] false = (Except.ok 0, 0) := by decide
example : standalone_exponent 10 [49, 48] = Except.ok (10, 2) := by decide
example :
    standalone_exponent 10 [45, 49, 48, 48, 48, 48, 48, 48, 48, 48, 48, 48] =
      Except.ok (-(2 ^ 31), 12) := by decide

-- Sanity checks against the in-repository tests of precise.rs.
example : parse_mantissa (2 ^ 64) 10 [49, 46, 50, 51, 52, 53] = (12345, 4, 6, false) := by
  decide
example : parse_mantissa (2 ^ 64) 10 [49, 50, 46, 51, 52, 53] = (12345, 3, 6, false) := by
  decide
example :
    parse_mantissa (2 ^ 64) 10 [49, 46, 50, 51, 52, 53, 101, 49, 48] = (12345, 4, 6, false) := by
  decide
example :
    parse_mantissa (2 ^ 64) 10 ([48, 46] ++ List.replicate 18 48 ++ [49]) =
      (1, 19, 21, false) := by decide
example :
    parse_mantissa (2 ^ 64) 10 (49 :: List.replicate 20 48) =
      (10000000000000000000, -1, 21, true) := by decide
example : parse_exponent 10 [101, 50, 48] = (20, 3) := by decide
example : parse_exponent 10 [101, 45, 50, 48] = (-20, 4) := by decide
example : parse_exponent 15 [94, 50, 48] = (30, 3) := by decide
example :
    parse_exponent 10 [101, 49, 48, 48, 48, 48, 48, 48, 48, 48, 48, 48] =
      (2147483647, 12) := by decide
example :
    parse_exponent 10 [101, 45, 49, 48, 48, 48, 48, 48, 48, 48, 48, 48, 48] =
      (-2147483647, 13) := by decide
example : normalize_mantissa 100 10 0 = (1, 2) := by decide
example : normalize_mantissa 101 10 0 = (101, 0) := by decide
example : normalize_mantissa 110 10 0 = (11, 1) := by decide
example :
    parse_float (2 ^ 64) 10 [49, 46, 50, 51, 52, 53, 101, 49, 48] = (12345, 6, 9, false) := by
  decide
example :
    parse_float (2 ^ 64) 10 (49 :: List.replicate 20 48) = (1, 20, 21, true) := by decide
example : is_halfway 23 0x1000001 = true := by decide
example : is_halfway 52 0x1000001 = false := by decide
example : is_halfway 52 0x20000000000001 = true := by decide
example : is_halfway 23 0x2000001 = false := by decide
example : is_halfway 52 0x8000000000000400 = true := by decide

/-! Helper lemmas about the i64 reinterpretation and wrap-around. -/

theorem toI64_small {x : ℕ} (h : x < 2 ^ 63) : toI64 x = x := by
  unfold toI64
  rw [if_pos h]

theorem toI64_big {x : ℕ} (h : 2 ^ 63 ≤ x) : toI64 x = (x : ℤ) - 2 ^ 64 := by
  unfold toI64
  rw [if_neg (by omega)]

theorem toI64_lb (x : ℕ) : -(2 ^ 63) ≤ toI64 x := by
  unfold toI64
  split <;> omega

theorem toI64_ub {x : ℕ} (h : x < 2 ^ 64) : toI64 x < 2 ^ 63 := by
  unfold toI64
  split <;> omega

theorem wrap64_eq {z : ℤ} (h1 : -(2 ^ 63) ≤ z) (h2 : z < 2 ^ 63) : wrap64 z = z := by
  unfold wrap64
  have h3 : 0 ≤ z + 2 ^ 63 := by omega
  have h4 : z + 2 ^ 63 < 2 ^ 64 := by omega
  rw [Int.emod_eq_of_lt h3 h4]
  ring

/-- Claim C8: for every signed integer type of the library (i8, i16, i32,
i64 and isize, i128), parsing the canonical decimal representation of the
type's most-negative value succeeds and returns exactly that value,
consuming the whole input, because negative accumulation is done by
checked subtraction. -/
theorem C8_most_negative_parses :
    standalone (-(2 ^ 7)) (2 ^ 7 - 1) 10 [45, 49, 50, 56] true =
      (Except.ok (-(2 ^ 7)), 4) ∧
    standalone (-(2 ^ 15)) (2 ^ 15 - 1) 10 [45, 51, 50, 55, 54, 56] true =
      (Except.ok (-(2 ^ 15)), 6) ∧
    standalone (-(2 ^ 31)) (2 ^ 31 - 1) 10
      [45, 50, 49, 52, 55, 52, 56, 51, 54, 52, 56] true =
      (Except.ok (-(2 ^ 31)), 11) ∧
    standalone (-(2 ^ 63)) (2 ^ 63 - 1) 10
      [45, 57, 50, 50, 51, 51, 55, 50, 48, 51, 54, 56, 53, 52, 55, 55, 53, 56, 48, 56]
      true = (Except.ok (-(2 ^ 63)), 20) ∧
    standalone (-(2 ^ 127)) (2 ^ 127 - 1) 10
      [45, 49, 55, 48, 49, 52, 49, 49, 56, 51, 52, 54, 48, 52, 54, 57, 50, 51, 49,
       55, 51, 49, 54, 56, 55, 51, 48, 51, 55, 49, 53, 56, 56, 52, 49, 48, 53, 55,
       50, 56] true = (Except.ok (-(2 ^ 127)), 40) := by
  exact ⟨by decide, by decide, by decide, by decide, by decide⟩

/-- Claim C1 counterexample: with the f64 constants, error count 4 and
the extended float (1020, 0), extrabits is 11, halfway is 1024 and
extra = 1020 lies in the closed interval [halfway - errors,
halfway + errors] = [1020, 1028], yet the predicate declares the
representation accurate: the code excludes only the open interval. -/
theorem C1_counterexample :
    error_is_accurate 52 1075 4 ⟨1020, 0⟩ = true ∧
    lower_n_halfway 11 - 4 ≤ 1020 % (lower_n_mask 11 + 1) ∧
    1020 % (lower_n_mask 11 + 1) ≤ lower_n_halfway 11 + 4 := by
  exact ⟨by decide, by decide, by decide⟩

/-- Claim C1 (amended): the 64-bit accuracy predicate computes extrabits
as 64 - MANTISSA_SIZE + denormal_exp - fp.exp when fp.exp ≤ denormal_exp
and 63 - MANTISSA_SIZE otherwise, and returns accurate iff: extrabits >
65; or extrabits = 65 and adding the error count to fp.frac does not
overflow; or extrabits = 64, where the signed comparison wraps around
and the predicate accepts unconditionally; or otherwise extra = fp.frac
mod 2^extrabits does not lie in the OPEN interval (halfway - errors,
halfway + errors), halfway = 2^(extrabits - 1). -/
theorem C1_amended (msize ebias : ℤ) (count : ℕ) (fp : ExtFloat) (eb : ℤ)
    (h0 : 0 ≤ msize) (h1 : msize ≤ 62) (h2 : fp.frac < 2 ^ 64) (h3 : count < 2 ^ 32)
    (hebdef : eb = if fp.exp ≤ msize - ebias - 63
                   then 64 - msize + (msize - ebias - 63) - fp.exp else 63 - msize) :
    (error_is_accurate msize ebias count fp = true ↔
      (65 < eb ∨ (eb = 65 ∧ fp.frac + count < 2 ^ 64) ∨ eb = 64 ∨
       (eb ≤ 63 ∧
        ¬((2 : ℤ) ^ (eb.toNat - 1) - count < ((fp.frac % 2 ^ eb.toNat : ℕ) : ℤ) ∧
          ((fp.frac % 2 ^ eb.toNat : ℕ) : ℤ) < 2 ^ (eb.toNat - 1) + count)))) := by
  have hde : -(ebias - msize) - 63 = msize - ebias - 63 := by ring
  have h1eb : 1 ≤ eb := by
    rcases le_or_lt fp.exp (msize - ebias - 63) with hexp | hexp
    · rw [hebdef, if_pos hexp]; omega
    · rw [hebdef, if_neg (not_le.mpr hexp)]; omega
  simp only [error_is_accurate, hde, ← hebdef]
  by_cases h65 : 65 < eb
  · rw [if_pos h65]
    simp [h65]
  rw [if_neg h65]
  by_cases h65e : eb = 65
  · rw [if_pos h65e]
    simp [h65e, decide_eq_true_iff]
  rw [if_neg h65e]
  have hle64 : eb ≤ 64 := by omega
  by_cases h64 : eb = 64
  · -- extrabits = 64: the signed comparison wraps; always accurate.
    subst h64
    have hn : (64 : ℤ).toNat = 64 := by decide
    rw [hn]
    have hmask : lower_n_mask 64 + 1 = 2 ^ 64 := by decide
    have hhalf : lower_n_halfway 64 = 2 ^ 63 := by decide
    rw [hmask, hhalf]
    have hextra : fp.frac % 2 ^ 64 = fp.frac := Nat.mod_eq_of_lt h2
    rw [hextra]
    have hH : toI64 (2 ^ 63) = -(2 ^ 63) := by
      rw [toI64_big le_rfl]; norm_num
    have hC : toI64 count = (count : ℤ) := toI64_small (by omega)
    have hFlb := toI64_lb fp.frac
    have hFub := toI64_ub h2
    have hcmp : ¬(wrap64 (toI64 (2 ^ 63) - toI64 count) < toI64 fp.frac ∧
        toI64 fp.frac < wrap64 (toI64 (2 ^ 63) + toI64 count)) := by
      rw [hH, hC]
      have hw2 : wrap64 (-(2 ^ 63) + count) = (count : ℤ) - 2 ^ 63 := by
        rw [wrap64_eq (by omega) (by omega)]; ring
      rcases Nat.eq_zero_or_pos count with hc0 | hcpos
      · subst hc0
        have hw1 : wrap64 (-(2 ^ 63) - (0 : ℕ)) = -(2 ^ 63) := by
          rw [wrap64_eq (by omega) (by omega)]; norm_num
        rw [hw1, hw2]
        push_cast
        omega
      · have hcz : (0 : ℤ) < count := by exact_mod_cast hcpos
        have hw1 : wrap64 (-(2 ^ 63) - count) = 2 ^ 63 - count := by
          unfold wrap64
          have : (-(2 ^ 63) - (count : ℤ) + 2 ^ 63) = -(count : ℤ) := by ring
          rw [this]
          have hmod : (-(count : ℤ)) % 2 ^ 64 = 2 ^ 64 - count := by omega
          rw [hmod]; ring
        rw [hw1, hw2]
        omega
    constructor
    · intro _
      exact Or.inr (Or.inr (Or.inl rfl))
    · intro _
      simp only [Bool.not_eq_true', Bool.and_eq_false_iff, decide_eq_false_iff_not]
      by_cases hc1 : wrap64 (toI64 (2 ^ 63) - toI64 count) < toI64 fp.frac
      · exact Or.inr (fun hc2 => hcmp ⟨hc1, hc2⟩)
      · exact Or.inl hc1
  · -- 1 ≤ extrabits ≤ 63: the comparisons are plain integer comparisons.
    have h63 : eb ≤ 63 := by omega
    set n := eb.toNat with hndef
    have hn1 : 1 ≤ n := by omega
    have hn63 : n ≤ 63 := by omega
    have hmask : lower_n_mask n + 1 = 2 ^ n := by
      unfold lower_n_mask
      rw [if_neg (by omega)]
      have : 0 < 2 ^ n := Nat.pos_pow_of_pos n (by norm_num)
      omega
    have hhalf : lower_n_halfway n = 2 ^ (n - 1) := by
      unfold lower_n_halfway
      rw [if_neg (by omega)]
    rw [hmask, hhalf]
    have hhalfle : (2 : ℕ) ^ (n - 1) ≤ 2 ^ 62 := Nat.pow_le_pow_right (by norm_num) (by omega)
    have hextra_lt : fp.frac % 2 ^ n < 2 ^ n := Nat.mod_lt _ (Nat.pos_pow_of_pos n (by norm_num))
    have hpowle : (2 : ℕ) ^ n ≤ 2 ^ 63 := Nat.pow_le_pow_right (by norm_num) hn63
    have hH : toI64 (2 ^ (n - 1)) = ((2 ^ (n - 1) : ℕ) : ℤ) := toI64_small (by omega)
    have hC : toI64 count = (count : ℤ) := toI64_small (by omega)
    have hX : toI64 (fp.frac % 2 ^ n) = ((fp.frac % 2 ^ n : ℕ) : ℤ) := toI64_small (by omega)
    have hcast : ((2 ^ (n - 1) : ℕ) : ℤ) = (2 : ℤ) ^ (n - 1) := by push_cast; ring
    have hcastle : ((2 ^ (n - 1) : ℕ) : ℤ) ≤ 2 ^ 62 := by exact_mod_cast hhalfle
    have hcast0 : (0 : ℤ) ≤ ((2 ^ (n - 1) : ℕ) : ℤ) := by positivity
    have hw1 : wrap64 (toI64 (2 ^ (n - 1)) - toI64 count) =
        ((2 ^ (n - 1) : ℕ) : ℤ) - count := by
      rw [hH, hC, wrap64_eq (by omega) (by omega)]
    have hw2 : wrap64 (toI64 (2 ^ (n - 1)) + toI64 count) =
        ((2 ^ (n - 1) : ℕ) : ℤ) + count := by
      rw [hH, hC, wrap64_eq (by omega) (by omega)]
    rw [hw1, hw2, hX]
    simp only [Bool.not_eq_true', Bool.and_eq_false_iff, decide_eq_false_iff_not,
      not_lt]
    constructor
    · intro h
      refine Or.inr (Or.inr (Or.inr ⟨h63, ?_⟩))
      rw [← hcast]
      rcases h with h | h
      · intro hc
        omega
      · intro hc
        omega
    · intro h
      rcases h with h | h | h | h
      · omega
      · omega
      · omega
      · rw [← hcast] at h
        rcases h with ⟨_, hni⟩
        by_cases hc1 : ((2 ^ (n - 1) : ℕ) : ℤ) - count < ((fp.frac % 2 ^ n : ℕ) : ℤ)
        · refine Or.inr ?_
          by_contra hc2
          push_neg at hc2
          exact hni ⟨hc1, by omega⟩
        · exact Or.inl (by omega)

/-- Claim C1 witness: the amended characterization applied at the f64
constants with error count 4 and the extended float (1024, 0). -/
theorem C1_witness :
    (error_is_accurate 52 1075 4 ⟨1024, 0⟩ = true ↔
      (65 < (11 : ℤ) ∨ ((11 : ℤ) = 65 ∧ 1024 + 4 < 2 ^ 64) ∨ (11 : ℤ) = 64 ∨
       ((11 : ℤ) ≤ 63 ∧
        ¬((2 : ℤ) ^ ((11 : ℤ).toNat - 1) - 4 < ((1024 % 2 ^ (11 : ℤ).toNat : ℕ) : ℤ) ∧
          ((1024 % 2 ^ (11 : ℤ).toNat : ℕ) : ℤ) < 2 ^ ((11 : ℤ).toNat - 1) + 4)))) :=
  C1_amended 52 1075 4 ⟨1024, 0⟩ 11 (by decide) (by decide) (by decide) (by decide)
    (by decide)

/-- Claim C7 counterexample: a truncated mantissa whose small-power
multiply succeeds directly (small power 1).  The error counter reaches
(4 + 1 + 4) * 2^1 = 18: the large multiply adds one single unit because
the counter is already positive.  The claim's accounting (another
half-scale only when the small multiply used the slow branch) predicts
(4 + 4) * 2^1 = 16 instead. -/
theorem C7_counterexample :
    (mulExpExtCore ⟨0, 8, [1], [⟨2 ^ 63, -63⟩], [⟨2 ^ 63, -63⟩]⟩ ⟨3, 0⟩ 0 0 true).2.1 = 18 ∧
    (mulExpExtCore ⟨0, 8, [1], [⟨2 ^ 63, -63⟩], [⟨2 ^ 63, -63⟩]⟩ ⟨3, 0⟩ 0 0 true).2.2 = 1 ∧
    (18 : ℕ) ≠ (error_halfscale + error_halfscale) * 2 ^ 1 := by
  exact ⟨by decide, by decide, by decide⟩

/-- Claim C7 (amended): in the in-range branch the error counter starts
at half-scale iff the mantissa was truncated; the small-power multiply
adds half-scale exactly when the direct integer multiply overflows; the
large-power multiply adds half-scale plus one single unit when the
counter is already nonzero (that is, when the mantissa was truncated or
the small multiply used the slow branch); and the final renormalisation
scales the accumulated units by two to the normalization shift. -/
theorem C7_amended (P : Powers) (fp : ExtFloat) (si li : ℕ) (t : Bool) :
    (mulExpExtCore P fp si li t).2.1 =
      ((if t then error_halfscale else 0) +
       (if 2 ^ 64 ≤ fp.frac * P.smallInt.getD si 0 then error_halfscale else 0) +
       (if t = true ∨ 2 ^ 64 ≤ fp.frac * P.smallInt.getD si 0 then 1 else 0) +
       error_halfscale) * 2 ^ (mulExpExtCore P fp si li t).2.2 := by
  rcases t <;> by_cases hov : 2 ^ 64 ≤ fp.frac * P.smallInt.getD si 0 <;>
    simp only [mulExpExtCore, hov, error_halfscale, error_scale, if_true, if_false,
      ite_true, ite_false, Bool.false_eq_true, eq_self_iff_true, or_true, true_or,
      false_or, or_false] <;> norm_num

/-- Claim C6: for a power-of-two radix, a parse that truncated the 64-bit
mantissa to a value matching the exact-halfway signature makes the driver
skip both the exact and the extended path and commit to the Bigfloat
slow path immediately, whatever the exact/extended validity oracles and
the lossy flag would have said. -/
theorem C6_truncated_halfway_bigfloat (msize : ℤ) (exactValid : ℕ → ℤ → Bool)
    (extendedValid : ℕ → ℤ → Bool → Bool) (lossy : Bool) (radix : ℕ) (bytes : List ℕ)
    (hpow : pow2_exponent radix ≠ 0)
    (hm : (parse_float (2 ^ 64) radix bytes).1 ≠ 0)
    (ht : (parse_float (2 ^ 64) radix bytes).2.2.2 = true)
    (hh : is_halfway msize (parse_float (2 ^ 64) radix bytes).1 = true) :
    toNativePath msize exactValid extendedValid lossy radix bytes =
      FloatPath.bigfloatHalfway := by
  unfold toNativePath
  rw [if_neg hm, if_pos hpow, if_pos ⟨ht, hh⟩]

/-- Claim C6 witness: the theorem applied to the concrete input. -/
theorem C6_witness :
    toNativePath 23 (fun _ _ => false) (fun _ _ _ => false) false 2 c6bytes =
      FloatPath.bigfloatHalfway :=
  C6_truncated_halfway_bigfloat 23 (fun _ _ => false) (fun _ _ _ => false) false 2 c6bytes
    (by decide) (by decide) (by decide) (by decide)

/-! Lemmas about the division loop of normalize_mantissa. -/

theorem divLoopF_spec (p : ℕ) (bump : ℤ) (fuel : ℕ) :
    ∀ (m : ℕ) (e : ℤ), ∃ k : ℕ,
      m = (divLoopF p bump fuel m e).1 * p ^ k ∧
      (divLoopF p bump fuel m e).2 = e + bump * k := by
  induction fuel with
  | zero =>
    intro m e
    exact ⟨0, by simp [divLoopF]⟩
  | succ fuel ih =>
    intro m e
    unfold divLoopF
    split
    · rename_i h
      obtain ⟨k, hk1, hk2⟩ := ih (m / p) (e + bump)
      set R := divLoopF p bump fuel (m / p) (e + bump) with hR
      refine ⟨k + 1, ?_, ?_⟩
      · calc m = m / p * p := (Nat.div_mul_cancel (Nat.dvd_of_mod_eq_zero h.2.2)).symm
          _ = R.1 * p ^ k * p := by rw [hk1]
          _ = R.1 * p ^ (k + 1) := by ring
      · rw [hk2]
        push_cast
        ring
    · exact ⟨0, by simp⟩

theorem divLoopF_post (p : ℕ) (bump : ℤ) (fuel : ℕ) :
    ∀ (m : ℕ) (e : ℤ), m ≤ fuel → 2 ≤ p →
      ¬(p ≤ (divLoopF p bump fuel m e).1 ∧ (divLoopF p bump fuel m e).1 % p = 0) := by
  induction fuel with
  | zero =>
    intro m e hm hp
    have : m = 0 := by omega
    subst this
    simp [divLoopF]
    omega
  | succ fuel ih =>
    intro m e hm hp
    unfold divLoopF
    split
    · rename_i h
      have hlt : m / p < m := Nat.div_lt_self (by omega) (by omega)
      exact ih (m / p) (e + bump) (by omega) hp
    · rename_i h
      intro hc
      exact h ⟨hp, hc.1, hc.2⟩

/-- Value preservation and non-divisibility of normalize_mantissa: the
shared workhorse behind the claims about the parse pipeline. -/
theorem normalize_mantissa_spec (radix m : ℕ) (e : ℤ) (hr : 2 ≤ radix) :
    (((normalize_mantissa m radix e).1 : ℚ) *
        (radix : ℚ) ^ (normalize_mantissa m radix e).2 =
      (m : ℚ) * (radix : ℚ) ^ e) ∧
    (m ≠ 0 → ¬ (radix ∣ (normalize_mantissa m radix e).1)) := by
  have hx : (radix : ℚ) ≠ 0 := by
    have : (0 : ℚ) < radix := by exact_mod_cast (by omega : 0 < radix)
    exact ne_of_gt this
  obtain ⟨k1, hk11, hk12⟩ := divLoopF_spec (radix * radix * (radix * radix)) 4 m m e
  set r4 := divLoopF (radix * radix * (radix * radix)) 4 m m e with hr4def
  obtain ⟨k2, hk21, hk22⟩ := divLoopF_spec (radix * radix) 2 r4.1 r4.1 r4.2
  set r2 := divLoopF (radix * radix) 2 r4.1 r4.1 r4.2 with hr2def
  have hnm : normalize_mantissa m radix e =
      if r2.1 % radix = 0 then (r2.1 / radix, r2.2 + 1) else r2 := by
    rw [hr2def, hr4def]
    rfl
  have hb2 : radix * radix = radix ^ 2 := by ring
  have hb4 : radix * radix * (radix * radix) = radix ^ 4 := by ring
  -- The mantissa factorization accumulated through both loops.
  have hfact : m = r2.1 * radix ^ (4 * k1 + 2 * k2) := by
    rw [hk11, hk21, hb4, hb2, ← pow_mul, ← pow_mul]
    ring
  have hexp : r2.2 = e + ((4 * k1 + 2 * k2 : ℕ) : ℤ) := by
    rw [hk22, hk12]
    push_cast
    ring
  have hval : ∀ (mf j : ℕ), m = mf * radix ^ j →
      ((mf : ℚ) * (radix : ℚ) ^ (e + (j : ℤ)) = (m : ℚ) * (radix : ℚ) ^ e) := by
    intro mf j hfc
    rw [hfc, zpow_add₀ hx, zpow_natCast]
    push_cast
    ring
  rw [hnm]
  by_cases hdvd : r2.1 % radix = 0
  · rw [if_pos hdvd]
    have hrdvd : radix ∣ r2.1 := Nat.dvd_of_mod_eq_zero hdvd
    constructor
    · have hfc : m = r2.1 / radix * radix ^ (4 * k1 + 2 * k2 + 1) := by
        rw [hfact]
        conv_lhs => rw [← Nat.div_mul_cancel hrdvd]
        ring
      have hv := hval (r2.1 / radix) (4 * k1 + 2 * k2 + 1) hfc
      have hexp1 : r2.2 + 1 = e + ((4 * k1 + 2 * k2 + 1 : ℕ) : ℤ) := by
        rw [hexp]
        push_cast
        ring
      calc ((r2.1 / radix : ℕ) : ℚ) * (radix : ℚ) ^ (r2.2 + 1)
          = ((r2.1 / radix : ℕ) : ℚ) *
              (radix : ℚ) ^ (e + ((4 * k1 + 2 * k2 + 1 : ℕ) : ℤ)) := by rw [hexp1]
        _ = (m : ℚ) * (radix : ℚ) ^ e := hv
    · show m ≠ 0 → ¬ radix ∣ r2.1 / radix
      intro hm0
      have h41 : r4.1 ≠ 0 := by
        intro h
        exact hm0 (by rw [hk11, h, zero_mul])
      have h21 : r2.1 ≠ 0 := by
        intro h
        exact h41 (by rw [hk21, h, zero_mul])
      have hp2 : 2 ≤ radix * radix := by
        have := Nat.mul_le_mul hr hr
        omega
      have hpost2 := divLoopF_post (radix * radix) 2 r4.1 r4.1 r4.2 le_rfl hp2
      rw [← hr2def] at hpost2
      have hb2notdvd : ¬ (radix * radix ∣ r2.1) := by
        intro hdd
        obtain ⟨q, hq⟩ := hdd
        exact hpost2 ⟨Nat.le_of_dvd (Nat.pos_of_ne_zero h21) ⟨q, hq⟩,
          by rw [hq]; exact Nat.mul_mod_right _ _⟩
      intro hcon
      apply hb2notdvd
      obtain ⟨q, hq⟩ := hcon
      refine ⟨q, ?_⟩
      conv_lhs => rw [← Nat.div_mul_cancel hrdvd]
      rw [hq]
      ring
  · rw [if_neg hdvd]
    constructor
    · have hv := hval r2.1 (4 * k1 + 2 * k2) hfact
      calc (r2.1 : ℚ) * (radix : ℚ) ^ r2.2
          = (r2.1 : ℚ) * (radix : ℚ) ^ (e + ((4 * k1 + 2 * k2 : ℕ) : ℤ)) := by rw [hexp]
        _ = (m : ℚ) * (radix : ℚ) ^ e := hv
    · intro _
      intro hcon
      obtain ⟨q, hq⟩ := hcon
      exact hdvd (by rw [hq]; exact Nat.mul_mod_right _ _)

/-- Claim C10: for every radix in 2..=36, every mantissa m and every
exponent e, normalize_mantissa preserves the value m · radix^e exactly
(stated over the rationals with integer exponents), and when the
mantissa is nonzero the resulting mantissa is not divisible by the
radix. -/
theorem C10_normalize_mantissa (radix m : ℕ) (e : ℤ) (hr : 2 ≤ radix)
    (hr36 : radix ≤ 36) :
    (((normalize_mantissa m radix e).1 : ℚ) *
        (radix : ℚ) ^ (normalize_mantissa m radix e).2 =
      (m : ℚ) * (radix : ℚ) ^ e) ∧
    (m ≠ 0 → ¬ (radix ∣ (normalize_mantissa m radix e).1)) :=
  normalize_mantissa_spec radix m e hr

/-- Claim C10 witness: the value-preservation and non-divisibility of
normalize_mantissa at radix 10, mantissa 100, exponent 0. -/
theorem C10_witness :
    ((((normalize_mantissa 100 10 0).1 : ℕ) : ℚ) *
        (((10 : ℕ) : ℚ)) ^ (normalize_mantissa 100 10 0).2 =
      (((100 : ℕ) : ℚ)) * (((10 : ℕ) : ℚ)) ^ (0 : ℤ)) ∧
    ((100 : ℕ) ≠ 0 → ¬ ((10 : ℕ) ∣ (normalize_mantissa 100 10 0).1)) :=
  C10_normalize_mantissa 10 100 0 (by decide) (by decide)

/-! Lemmas about the exponent parser's overflow behaviour. -/

theorem firstNonDigit_spec (radix : ℕ) :
    ∀ (l : List ℕ) (i : ℕ),
      firstNonDigit radix l i =
        i + (l.takeWhile (fun c => (to_digit radix c).isSome)).length := by
  intro l
  induction l with
  | nil => intro i; simp [firstNonDigit]
  | cons c tl ih =>
    intro i
    unfold firstNonDigit
    by_cases h : (to_digit radix c).isSome
    · rw [if_pos h, ih (i + 1), List.takeWhile_cons, if_pos h]
      simp
      omega
    · rw [if_neg h, List.takeWhile_cons, if_neg h]
      simp

theorem expLoop_overflow (radix : ℕ) (s : Sign) (dflt : ℤ) :
    ∀ (l : List ℕ) (v : ℤ) (i : ℕ),
      chkFold i32lo i32hi radix s v
        (l.takeWhile (fun c => (to_digit radix c).isSome)) = none →
      expLoop radix s dflt v l i =
        (dflt, i + (l.takeWhile (fun c => (to_digit radix c).isSome)).length) := by
  intro l
  induction l with
  | nil =>
    intro v i h
    simp [chkFold] at h
  | cons c tl ih =>
    intro v i h
    rw [List.takeWhile_cons] at h
    by_cases hd : (to_digit radix c).isSome
    · rw [if_pos hd] at h
      obtain ⟨d, hdval⟩ := Option.isSome_iff_exists.mp hd
      simp only [chkFold, hdval] at h
      cases hstep : chkStep i32lo i32hi radix s v d with
      | none =>
        simp only [expLoop, hdval, hstep]
        rw [firstNonDigit_spec radix tl (i + 1), List.takeWhile_cons, if_pos hd]
        simp
        omega
      | some v2 =>
        rw [hstep] at h
        simp only [expLoop, hdval, hstep]
        rw [ih v2 (i + 1) h, List.takeWhile_cons, if_pos hd]
        simp
        omega
    · rw [if_neg hd] at h
      simp [chkFold] at h

/-- Claim C5 counterexample: at radix 10 on the exponent digit string
"-10000000000", the signed 32-bit accumulation overflows and the parser
returns i32::min_value() = -2^31, not -i32::MAX = -(2^31 - 1) as the
claim states. -/
theorem C5_counterexample :
    standalone_exponent 10 [45, 49, 48, 48, 48, 48, 48, 48, 48, 48, 48, 48] =
      Except.ok (-(2 ^ 31), 12) ∧
    (-(2 ^ 31) : ℤ) ≠ -(2 ^ 31 - 1) := by
  exact ⟨by decide, by decide⟩

/-- Claim C5 (amended): when the exponent parser's signed 32-bit
accumulation overflows, it does not return an error: it saturates the
result to i32::MAX for a positive sign and to i32::MIN (not -i32::MAX)
for a negative sign, and it continues consuming the remaining digit
bytes so that the returned position is past all digits of the
exponent. -/
theorem C5_amended (radix : ℕ) (bytes : List ℕ)
    (hne : bytes ≠ [])
    (hdig : (signSplit bytes true).2.1 ≠ [])
    (hover : chkFold i32lo i32hi radix (signSplit bytes true).1 0
      ((signSplit bytes true).2.1.takeWhile (fun c => (to_digit radix c).isSome)) =
      none) :
    standalone_exponent radix bytes =
      Except.ok
        ((match (signSplit bytes true).1 with
          | Sign.positive => (2 ^ 31 - 1 : ℤ)
          | Sign.negative => (-(2 ^ 31) : ℤ)),
         (signSplit bytes true).2.2 +
           ((signSplit bytes true).2.1.takeWhile
             (fun c => (to_digit radix c).isSome)).length) := by
  cases bytes with
  | nil => exact absurd rfl hne
  | cons b0 tl =>
    show (if (signSplit (b0 :: tl) true).2.1.isEmpty then
            Except.error (ErrorCode.emptyExponent, (signSplit (b0 :: tl) true).2.2)
          else
            match (signSplit (b0 :: tl) true).1 with
            | Sign.positive =>
              Except.ok (expLoop radix Sign.positive (2 ^ 31 - 1) 0
                (signSplit (b0 :: tl) true).2.1 (signSplit (b0 :: tl) true).2.2)
            | Sign.negative =>
              Except.ok (expLoop radix Sign.negative (-(2 ^ 31)) 0
                (signSplit (b0 :: tl) true).2.1 (signSplit (b0 :: tl) true).2.2)) = _
    have hne2 : ¬ ((signSplit (b0 :: tl) true).2.1.isEmpty = true) := by
      cases h : (signSplit (b0 :: tl) true).2.1 with
      | nil => exact absurd h hdig
      | cons x xs => simp
    rw [if_neg hne2]
    cases hsgn : (signSplit (b0 :: tl) true).1 with
    | positive =>
      rw [hsgn] at hover
      rw [expLoop_overflow radix Sign.positive (2 ^ 31 - 1)
        (signSplit (b0 :: tl) true).2.1 0 (signSplit (b0 :: tl) true).2.2 hover]
    | negative =>
      rw [hsgn] at hover
      rw [expLoop_overflow radix Sign.negative (-(2 ^ 31))
        (signSplit (b0 :: tl) true).2.1 0 (signSplit (b0 :: tl) true).2.2 hover]

/-- Claim C5 witness: the amended saturation behaviour on the concrete
exponent digit string "-10000000000" at radix 10. -/
theorem C5_witness :
    standalone_exponent 10 [45, 49, 48, 48, 48, 48, 48, 48, 48, 48, 48, 48] =
      Except.ok
        ((match (signSplit [45, 49, 48, 48, 48, 48, 48, 48, 48, 48, 48, 48] true).1 with
          | Sign.positive => (2 ^ 31 - 1 : ℤ)
          | Sign.negative => (-(2 ^ 31) : ℤ)),
         (signSplit [45, 49, 48, 48, 48, 48, 48, 48, 48, 48, 48, 48] true).2.2 +
           ((signSplit [45, 49, 48, 48, 48, 48, 48, 48, 48, 48, 48, 48] true).2.1.takeWhile
             (fun c => (to_digit 10 c).isSome)).length) :=
  C5_amended 10 [45, 49, 48, 48, 48, 48, 48, 48, 48, 48, 48, 48] (by decide) (by decide)
    (by decide)

/-! Lemmas about the integer parser's digit loop. -/

theorem standaloneLoop_err (lo hi : ℤ) (radix : ℕ) (s : Sign) :
    ∀ (j : ℕ) (l : List ℕ) (v : ℤ) (i : ℕ) (w : ℤ) (c d : ℕ),
      chkFold lo hi radix s v (l.take j) = some w →
      l.get? j = some c →
      to_digit radix c = some d →
      chkStep lo hi radix s w d = none →
      standaloneLoop lo hi radix s v l i = (Except.error (errFor s), i + j) := by
  intro j
  induction j with
  | zero =>
    intro l v i w c d hfold hc hd hfail
    simp only [List.take_zero, chkFold, Option.some.injEq] at hfold
    subst hfold
    cases l with
    | nil => simp at hc
    | cons c0 tl =>
      have hc0 : c0 = c := by simpa using hc
      subst hc0
      unfold chkStep at hfail
      cases hmul : checkedMul lo hi v radix with
      | none =>
        simp only [standaloneLoop, hd, hmul, Nat.add_zero]
      | some w2 =>
        simp only [hmul] at hfail
        simp only [standaloneLoop, hd, hmul, hfail, Nat.add_zero]
  | succ j ih =>
    intro l v i w c d hfold hc hd hfail
    cases l with
    | nil => simp at hc
    | cons c0 tl =>
      rw [List.take_succ_cons] at hfold
      have hc' : tl.get? j = some c := by simpa using hc
      cases hd0 : to_digit radix c0 with
      | none =>
        simp only [chkFold, hd0] at hfold
        exact absurd hfold (by simp)
      | some d0 =>
        simp only [chkFold, hd0] at hfold
        cases hstep : chkStep lo hi radix s v d0 with
        | none =>
          rw [hstep] at hfold
          simp at hfold
        | some v1 =>
          rw [hstep] at hfold
          unfold chkStep at hstep
          cases hmul : checkedMul lo hi v radix with
          | none =>
            rw [hmul] at hstep
            simp at hstep
          | some w2 =>
            simp only [hmul] at hstep
            simp only [standaloneLoop, hd0, hmul, hstep]
            rw [ih tl v1 (i + 1) w c d hfold hc' hd hfail]
            have : i + 1 + j = i + (j + 1) := by omega
            rw [this]

/-- Claim C4: for every integer type (value range [lo, hi]), radix and
digit sequence, the integer parser processes one digit at a time by a
checked multiply of the accumulator by the radix followed by a checked
add (positive sign) or checked subtract (negative sign) of the digit;
when the checked step first fails, it returns Overflow (positive sign)
or Underflow (negative sign) — errFor of the sign — at the index of the
byte being processed. -/
theorem C4_checked_step_error (lo hi : ℤ) (radix : ℕ) (bytes : List ℕ)
    (is_signed : Bool) (j : ℕ) (w : ℤ) (c d : ℕ)
    (hfold : chkFold lo hi radix (signSplit bytes is_signed).1 0
      (((signSplit bytes is_signed).2.1).take j) = some w)
    (hc : ((signSplit bytes is_signed).2.1).get? j = some c)
    (hd : to_digit radix c = some d)
    (hfail : chkStep lo hi radix (signSplit bytes is_signed).1 w d = none) :
    standalone lo hi radix bytes is_signed =
      (Except.error (errFor (signSplit bytes is_signed).1),
       (signSplit bytes is_signed).2.2 + j) := by
  cases bytes with
  | nil => simp [signSplit] at hc
  | cons b0 tl =>
    show (if (signSplit (b0 :: tl) is_signed).2.1.isEmpty then
            (Except.error ErrorCode.empty, (signSplit (b0 :: tl) is_signed).2.2)
          else standaloneLoop lo hi radix (signSplit (b0 :: tl) is_signed).1 0
            (signSplit (b0 :: tl) is_signed).2.1 (signSplit (b0 :: tl) is_signed).2.2) = _
    have hne : ¬ ((signSplit (b0 :: tl) is_signed).2.1.isEmpty = true) := by
      cases h : (signSplit (b0 :: tl) is_signed).2.1 with
      | nil => rw [h] at hc; simp at hc
      | cons x xs => simp
    rw [if_neg hne]
    exact standaloneLoop_err lo hi radix _ j _ 0 _ w c d hfold hc hd hfail

/-- Claim C4 witness: parsing "256" as a u8 fails with Overflow at
index 2, the byte being processed when the checked add fails. -/
theorem C4_witness :
    standalone 0 255 10 [50, 53, 54] false =
      (Except.error (errFor (signSplit [50, 53, 54] false).1),
       (signSplit [50, 53, 54] false).2.2 + 2) :=
  C4_checked_step_error 0 255 10 [50, 53, 54] false 2 25 54 6 (by decide) (by decide)
    (by decide) (by decide)

theorem standaloneLoop_step (lo hi : ℤ) (radix : ℕ) (s : Sign) (v : ℤ) (c : ℕ)
    (tl : List ℕ) (i : ℕ) (d : ℕ) (w v2 : ℤ)
    (hd : to_digit radix c = some d)
    (hmul : checkedMul lo hi v radix = some w)
    (hop : (match s with
            | Sign.positive => checkedAdd lo hi w d
            | Sign.negative => checkedSub lo hi w d) = some v2) :
    standaloneLoop lo hi radix s v (c :: tl) i =
      standaloneLoop lo hi radix s v2 tl (i + 1) := by
  simp only [standaloneLoop, hd, hmul, hop]

theorem standaloneLoop_bounds (lo hi : ℤ) (radix : ℕ) (s : Sign) :
    ∀ (l : List ℕ) (v : ℤ) (i : ℕ),
      i ≤ (standaloneLoop lo hi radix s v l i).2 ∧
      (standaloneLoop lo hi radix s v l i).2 ≤ i + l.length := by
  intro l
  induction l with
  | nil =>
    intro v i
    simp [standaloneLoop]
  | cons c tl ih =>
    intro v i
    cases hd : to_digit radix c with
    | none =>
      simp only [standaloneLoop, hd]
      simp
    | some d =>
      simp only [standaloneLoop, hd]
      cases hmul : checkedMul lo hi v radix with
      | none =>
        simp
      | some w =>
        cases hop : (match s with
                     | Sign.positive => checkedAdd lo hi w d
                     | Sign.negative => checkedSub lo hi w d) with
        | none =>
          simp only [hop]
          simp
        | some v2 =>
          simp only [hop]
          have hb := ih v2 (i + 1)
          simp only [List.length_cons]
          exact ⟨by omega, by omega⟩

/-- Claim C9 counterexample: on the input "a" (first byte not a sign or
digit), the integer parser returns success — value zero — at position
zero, so a successful parse does not always return a strictly positive
position. -/
theorem C9_counterexample :
    (standalone 0 255 10 [97] false).1 = Except.ok 0 ∧
    (standalone 0 255 10 [97] false).2 = 0 := by
  exact ⟨by decide, by decide⟩

/-- Claim C9 (amended): for every integer type (value range [lo, hi]),
radix and input byte string, the position returned by the integer parser
(success or error) never exceeds the input length; and whenever the
parser returns success and the input's first byte is a consumed sign or
a valid digit, the position is strictly greater than zero (an input
whose first byte is neither yields success with value zero at position
zero). -/
theorem C9_amended (lo hi : ℤ) (radix : ℕ) (bytes : List ℕ) (is_signed : Bool) :
    (standalone lo hi radix bytes is_signed).2 ≤ bytes.length ∧
    (∀ v, (standalone lo hi radix bytes is_signed).1 = Except.ok v →
      firstByteConsumable radix bytes is_signed = true →
      0 < (standalone lo hi radix bytes is_signed).2) := by
  cases bytes with
  | nil =>
    constructor
    · simp [standalone]
    · intro v hv _
      rw [show standalone lo hi radix [] is_signed =
        (Except.error ErrorCode.empty, 0) from rfl] at hv
      simp at hv
  | cons b0 tl =>
    have hmain : ∀ (sg : Sign) (dg : List ℕ) (st : ℕ),
        signSplit (b0 :: tl) is_signed = (sg, dg, st) →
        standalone lo hi radix (b0 :: tl) is_signed =
          (if dg.isEmpty then (Except.error ErrorCode.empty, st)
           else standaloneLoop lo hi radix sg 0 dg st) := by
      intro sg dg st hss
      show (if (signSplit (b0 :: tl) is_signed).2.1.isEmpty then
              (Except.error ErrorCode.empty, (signSplit (b0 :: tl) is_signed).2.2)
            else standaloneLoop lo hi radix (signSplit (b0 :: tl) is_signed).1 0
              (signSplit (b0 :: tl) is_signed).2.1
              (signSplit (b0 :: tl) is_signed).2.2) = _
      rw [hss]
    by_cases h43 : b0 = 43
    · subst h43
      have hss : signSplit (43 :: tl) is_signed = (Sign.positive, tl, 1) := by
        simp [signSplit]
      rw [hmain Sign.positive tl 1 hss]
      cases tl with
      | nil =>
        constructor
        · simp
        · intro v hv _
          simp at hv
      | cons c1 tl1 =>
        have hb := standaloneLoop_bounds lo hi radix Sign.positive (c1 :: tl1) 0 1
        have hlen : (43 :: c1 :: tl1).length = 1 + (c1 :: tl1).length := by
          simp
          omega
        refine ⟨?_, ?_⟩
        · show (standaloneLoop lo hi radix Sign.positive 0 (c1 :: tl1) 1).2 ≤
            (43 :: c1 :: tl1).length
          omega
        · intro v _ _
          show 0 < (standaloneLoop lo hi radix Sign.positive 0 (c1 :: tl1) 1).2
          omega
    · by_cases h45 : b0 = 45 ∧ is_signed = true
      · obtain ⟨h45b, h45s⟩ := h45
        subst h45b
        have hss : signSplit (45 :: tl) is_signed = (Sign.negative, tl, 1) := by
          show (if (45 : ℕ) = 43 then (Sign.positive, tl, 1)
                else if (45 : ℕ) = 45 ∧ is_signed = true then (Sign.negative, tl, 1)
                else (Sign.positive, 45 :: tl, 0)) = (Sign.negative, tl, 1)
          rw [if_neg (by omega), if_pos ⟨rfl, h45s⟩]
        rw [hmain Sign.negative tl 1 hss]
        cases tl with
        | nil =>
          constructor
          · simp
          · intro v hv _
            simp at hv
        | cons c1 tl1 =>
          have hb := standaloneLoop_bounds lo hi radix Sign.negative (c1 :: tl1) 0 1
          have hlen : (45 :: c1 :: tl1).length = 1 + (c1 :: tl1).length := by
            simp
            omega
          refine ⟨?_, ?_⟩
          · show (standaloneLoop lo hi radix Sign.negative 0 (c1 :: tl1) 1).2 ≤
              (45 :: c1 :: tl1).length
            omega
          · intro v _ _
            show 0 < (standaloneLoop lo hi radix Sign.negative 0 (c1 :: tl1) 1).2
            omega
      · have hss : signSplit (b0 :: tl) is_signed = (Sign.positive, b0 :: tl, 0) := by
          show (if b0 = 43 then (Sign.positive, tl, 1)
                else if b0 = 45 ∧ is_signed = true then (Sign.negative, tl, 1)
                else (Sign.positive, b0 :: tl, 0)) = (Sign.positive, b0 :: tl, 0)
          rw [if_neg h43, if_neg h45]
        rw [hmain Sign.positive (b0 :: tl) 0 hss]
        have hb := standaloneLoop_bounds lo hi radix Sign.positive (b0 :: tl) 0 0
        refine ⟨?_, ?_⟩
        · show (standaloneLoop lo hi radix Sign.positive 0 (b0 :: tl) 0).2 ≤
            (b0 :: tl).length
          omega
        · intro v hv hfb
          replace hv : (standaloneLoop lo hi radix Sign.positive 0 (b0 :: tl) 0).1 =
              Except.ok v := hv
          show 0 < (standaloneLoop lo hi radix Sign.positive 0 (b0 :: tl) 0).2
          -- The first byte must be a valid digit.
          have hdig : (to_digit radix b0).isSome := by
            unfold firstByteConsumable at hfb
            simp only [Bool.or_eq_true, Bool.and_eq_true, decide_eq_true_iff] at hfb
            rcases hfb with (h | h) | h
            · exact absurd h h43
            · exact absurd ⟨h.1, h.2⟩ h45
            · exact h
          obtain ⟨d, hd⟩ := Option.isSome_iff_exists.mp hdig
          cases hmul : checkedMul lo hi 0 radix with
          | none =>
            simp only [standaloneLoop, hd, hmul] at hv
            simp at hv
          | some w =>
            cases hop : checkedAdd lo hi w d with
            | none =>
              simp only [standaloneLoop, hd, hmul, hop] at hv
              simp at hv
            | some v2 =>
              rw [standaloneLoop_step lo hi radix Sign.positive 0 b0 tl 0 d w v2
                hd hmul hop]
              have hb2 := standaloneLoop_bounds lo hi radix Sign.positive tl v2 (0 + 1)
              omega

/-- Claim C9 witness: the amended position bounds applied to parsing
"12" as a u8: the returned position is at most the length and, the parse
succeeding on a digit-initial input, strictly positive. -/
theorem C9_witness :
    (standalone 0 255 10 [49, 50] false).2 ≤ 2 ∧
    0 < (standalone 0 255 10 [49, 50] false).2 :=
  ⟨(C9_amended 0 255 10 [49, 50] false).1,
   (C9_amended 0 255 10 [49, 50] false).2 12 (by decide) (by decide)⟩

/-- Claim C3 counterexample: on "1.2345e10" the mantissa parse yields
dot_shift 4, the exponent parse yields 10, and parse_float hands 6 =
10 - 4 onward (the mantissa 12345 is not divisible by 10, so
normalisation leaves the exponent untouched); the claim's
parsed_exponent + dot_shift would be 14. -/
theorem C3_counterexample :
    parse_mantissa (2 ^ 64) 10 [49, 46, 50, 51, 52, 53, 101, 49, 48] =
      (12345, 4, 6, false) ∧
    parse_exponent 10 [101, 49, 48] = (10, 3) ∧
    parse_float (2 ^ 64) 10 [49, 46, 50, 51, 52, 53, 101, 49, 48] =
      (12345, 6, 9, false) ∧
    (6 : ℤ) ≠ 10 + 4 := by
  exact ⟨by decide, by decide, by decide, by decide⟩

/-- Claim C3 (amended): after mantissa parsing (yielding dot_shift) and
exponent parsing (yielding parsed_exponent), the exponent that
parse_float hands to mantissa normalisation equals parsed_exponent
MINUS dot_shift, and the conversion paths receive that value adjusted
only by the factors normalize_mantissa moves out of the mantissa, so
that the final pair still denotes mantissa · radix^(parsed_exponent -
dot_shift). -/
theorem C3_amended (cap radix : ℕ) (bytes : List ℕ) (hr : 2 ≤ radix) :
    parse_float cap radix bytes =
      ((normalize_mantissa (parse_mantissa cap radix bytes).1 radix
          ((parse_exponent radix (bytes.drop (parse_mantissa cap radix bytes).2.2.1)).1 -
            (parse_mantissa cap radix bytes).2.1)).1,
       (normalize_mantissa (parse_mantissa cap radix bytes).1 radix
          ((parse_exponent radix (bytes.drop (parse_mantissa cap radix bytes).2.2.1)).1 -
            (parse_mantissa cap radix bytes).2.1)).2,
       (parse_mantissa cap radix bytes).2.2.1 +
         (parse_exponent radix (bytes.drop (parse_mantissa cap radix bytes).2.2.1)).2,
       (parse_mantissa cap radix bytes).2.2.2) ∧
    ((parse_float cap radix bytes).1 : ℚ) *
        (radix : ℚ) ^ (parse_float cap radix bytes).2.1 =
      ((parse_mantissa cap radix bytes).1 : ℚ) *
        (radix : ℚ) ^
          ((parse_exponent radix (bytes.drop (parse_mantissa cap radix bytes).2.2.1)).1 -
            (parse_mantissa cap radix bytes).2.1) := by
  refine ⟨rfl, ?_⟩
  exact (normalize_mantissa_spec radix (parse_mantissa cap radix bytes).1
    ((parse_exponent radix (bytes.drop (parse_mantissa cap radix bytes).2.2.1)).1 -
      (parse_mantissa cap radix bytes).2.1) hr).1

/-- Claim C3 witness: the amended statement applied to "1.2345e10" at
radix 10 with a 64-bit mantissa. -/
theorem C3_witness :
    parse_float (2 ^ 64) 10 [49, 46, 50, 51, 52, 53, 101, 49, 48] =
      ((normalize_mantissa
          (parse_mantissa (2 ^ 64) 10 [49, 46, 50, 51, 52, 53, 101, 49, 48]).1 10
          ((parse_exponent 10 ([49, 46, 50, 51, 52, 53, 101, 49, 48].drop
              (parse_mantissa (2 ^ 64) 10 [49, 46, 50, 51, 52, 53, 101, 49, 48]).2.2.1)).1 -
            (parse_mantissa (2 ^ 64) 10 [49, 46, 50, 51, 52, 53, 101, 49, 48]).2.1)).1,
       (normalize_mantissa
          (parse_mantissa (2 ^ 64) 10 [49, 46, 50, 51, 52, 53, 101, 49, 48]).1 10
          ((parse_exponent 10 ([49, 46, 50, 51, 52, 53, 101, 49, 48].drop
              (parse_mantissa (2 ^ 64) 10 [49, 46, 50, 51, 52, 53, 101, 49, 48]).2.2.1)).1 -
            (parse_mantissa (2 ^ 64) 10 [49, 46, 50, 51, 52, 53, 101, 49, 48]).2.1)).2,
       (parse_mantissa (2 ^ 64) 10 [49, 46, 50, 51, 52, 53, 101, 49, 48]).2.2.1 +
         (parse_exponent 10 ([49, 46, 50, 51, 52, 53, 101, 49, 48].drop
            (parse_mantissa (2 ^ 64) 10 [49, 46, 50, 51, 52, 53, 101, 49, 48]).2.2.1)).2,
       (parse_mantissa (2 ^ 64) 10 [49, 46, 50, 51, 52, 53, 101, 49, 48]).2.2.2) ∧
    ((parse_float (2 ^ 64) 10 [49, 46, 50, 51, 52, 53, 101, 49, 48]).1 : ℚ) *
        (((10 : ℕ) : ℚ)) ^ (parse_float (2 ^ 64) 10 [49, 46, 50, 51, 52, 53, 101, 49, 48]).2.1 =
      ((parse_mantissa (2 ^ 64) 10 [49, 46, 50, 51, 52, 53, 101, 49, 48]).1 : ℚ) *
        (((10 : ℕ) : ℚ)) ^
          ((parse_exponent 10 ([49, 46, 50, 51, 52, 53, 101, 49, 48].drop
              (parse_mantissa (2 ^ 64) 10 [49, 46, 50, 51, 52, 53, 101, 49, 48]).2.2.1)).1 -
            (parse_mantissa (2 ^ 64) 10 [49, 46, 50, 51, 52, 53, 101, 49, 48]).2.1) :=
  C3_amended (2 ^ 64) 10 [49, 46, 50, 51, 52, 53, 101, 49, 48] (by decide)

/-! List and digit-fold helper lemmas for the mantissa-parser claims. -/

theorem take_append_len (l1 l2 : List ℕ) (n : ℕ) :
    (l1 ++ l2).take (l1.length + n) = l1 ++ l2.take n := by
  induction l1 with
  | nil => simp
  | cons c tl ih =>
    have : (c :: tl).length + n = (tl.length + n) + 1 := by simp; omega
    rw [this]
    simp only [List.cons_append, List.take_succ_cons, List.length_cons]
    rw [ih]

theorem take_takeWhile_len (p : ℕ → Bool) (l : List ℕ) :
    l.take (l.takeWhile p).length = l.takeWhile p := by
  induction l with
  | nil => simp
  | cons c tl ih =>
    by_cases h : p c
    · rw [List.takeWhile_cons, if_pos h]
      simp only [List.length_cons, List.take_succ_cons]
      rw [ih]
    · rw [List.takeWhile_cons, if_neg h]
      simp

theorem drop_takeWhile_len (p : ℕ → Bool) (l : List ℕ) :
    l.drop (l.takeWhile p).length = l.dropWhile p := by
  induction l with
  | nil => simp
  | cons c tl ih =>
    by_cases h : p c
    · rw [List.takeWhile_cons, if_pos h, List.dropWhile_cons_of_pos h]
      simpa using ih
    · rw [List.takeWhile_cons, if_neg h, List.dropWhile_cons_of_neg h]
      simp

theorem tw_append_dw (p : ℕ → Bool) (l : List ℕ) :
    l.takeWhile p ++ l.dropWhile p = l := by
  induction l with
  | nil => simp
  | cons c tl ih =>
    by_cases h : p c
    · rw [List.takeWhile_cons, if_pos h, List.dropWhile_cons_of_pos h]
      simpa using ih
    · rw [List.takeWhile_cons, if_neg h, List.dropWhile_cons_of_neg h]
      simp

theorem mem_takeWhile_sat (p : ℕ → Bool) (l : List ℕ) :
    ∀ c ∈ l.takeWhile p, p c = true := by
  induction l with
  | nil => simp
  | cons c tl ih =>
    by_cases h : p c
    · rw [List.takeWhile_cons, if_pos h]
      intro x hx
      rcases List.mem_cons.mp hx with hx | hx
      · subst hx; exact h
      · exact ih x hx
    · rw [List.takeWhile_cons, if_neg h]
      simp

theorem to_digit_lt {radix c d : ℕ} (h : to_digit radix c = some d) : d < radix := by
  simp only [to_digit] at h
  split at h
  · rename_i v hvdef
    split at h
    · rename_i hlt
      injection h with h
      omega
    · simp at h
  · simp at h

theorem to_digit_46 (radix : ℕ) : to_digit radix 46 = none := rfl

theorem to_digit_48 {radix : ℕ} (hr : 1 ≤ radix) : to_digit radix 48 = some 0 := by
  unfold to_digit
  norm_num
  omega

theorem dval_eq {radix c d : ℕ} (h : to_digit radix c = some d) : dval radix c = d := by
  simp [dval, h]

theorem valid_ne46 {radix c : ℕ} (h : (to_digit radix c).isSome = true) : c ≠ 46 := by
  intro hc
  subst hc
  rw [to_digit_46] at h
  simp at h

theorem natFold_append (radix v : ℕ) (l1 l2 : List ℕ) :
    natFold radix v (l1 ++ l2) = natFold radix (natFold radix v l1) l2 :=
  List.foldl_append _ _ _ _

theorem natFold_zeros (radix : ℕ) {l : List ℕ} (h : ∀ c ∈ l, dval radix c = 0) :
    natFold radix 0 l = 0 := by
  induction l with
  | nil => rfl
  | cons c tl ih =>
    have h0 : dval radix c = 0 := h c (by simp)
    show natFold radix (0 * radix + dval radix c) tl = 0
    rw [h0, Nat.zero_mul, Nat.add_zero]
    exact ih (fun x hx => h x (by simp [hx]))

theorem natFold_split (radix : ℕ) (l : List ℕ) :
    ∀ v, natFold radix v l = v * radix ^ l.length + natFold radix 0 l := by
  induction l with
  | nil => intro v; simp [natFold]
  | cons c tl ih =>
    intro v
    show natFold radix (v * radix + dval radix c) tl =
      v * radix ^ (c :: tl).length + natFold radix (0 * radix + dval radix c) tl
    rw [ih (v * radix + dval radix c), ih (0 * radix + dval radix c)]
    simp only [List.length_cons]
    ring

theorem natFold_lt (radix : ℕ) {l : List ℕ} (hr : 1 ≤ radix)
    (h : ∀ c ∈ l, dval radix c < radix) :
    natFold radix 0 l < radix ^ l.length := by
  suffices haux : ∀ (l : List ℕ), (∀ c ∈ l, dval radix c < radix) →
      ∀ a, natFold radix a l < (a + 1) * radix ^ l.length by
    have := haux l h 0
    simpa using this
  intro l
  induction l with
  | nil => intro _ a; simp [natFold]
  | cons c tl ih =>
    intro hl a
    show natFold radix (a * radix + dval radix c) tl < (a + 1) * radix ^ (c :: tl).length
    have h1 := ih (fun x hx => hl x (by simp [hx])) (a * radix + dval radix c)
    have hc : dval radix c < radix := hl c (by simp)
    have h2 : (a * radix + dval radix c + 1) * radix ^ tl.length ≤
        (a + 1) * radix ^ (c :: tl).length := by
      simp only [List.length_cons, pow_succ]
      have : a * radix + dval radix c + 1 ≤ (a + 1) * radix := by nlinarith
      calc (a * radix + dval radix c + 1) * radix ^ tl.length
          ≤ (a + 1) * radix * radix ^ tl.length := Nat.mul_le_mul_right _ this
        _ = (a + 1) * (radix ^ tl.length * radix) := by ring
    omega

/-! Characterization of the checked mantissa accumulator. -/

theorem checkedCore_trunc (cap radix : ℕ) :
    ∀ (l : List ℕ) (v t0 : ℕ), 1 ≤ t0 →
      checkedCore cap radix v t0 l =
        (v, t0 + (l.takeWhile (fun c => (to_digit radix c).isSome)).length,
         (l.takeWhile (fun c => (to_digit radix c).isSome)).length) := by
  intro l
  induction l with
  | nil =>
    intro v t0 _
    simp [checkedCore]
  | cons c tl ih =>
    intro v t0 ht0
    cases hd : to_digit radix c with
    | none =>
      rw [List.takeWhile_cons]
      simp only [hd, Option.isSome_none, Bool.false_eq_true, if_false]
      simp [checkedCore, hd]
    | some d =>
      rw [List.takeWhile_cons]
      simp only [hd, Option.isSome_some, if_true]
      have hcc : checkedCore cap radix v t0 (c :: tl) =
          (v, t0 + 1 + (tl.takeWhile (fun c => (to_digit radix c).isSome)).length,
           (tl.takeWhile (fun c => (to_digit radix c).isSome)).length + 1) := by
        simp only [checkedCore, hd]
        rw [if_neg (by intro hcon; omega), ih v (t0 + 1) (by omega)]
      rw [hcc]
      simp only [List.length_cons]
      have h1 : t0 + 1 + (tl.takeWhile (fun c => (to_digit radix c).isSome)).length =
          t0 + ((tl.takeWhile (fun c => (to_digit radix c).isSome)).length + 1) := by
        omega
      rw [h1]

theorem checkedCore_spec (cap radix : ℕ) (hr : 1 ≤ radix) :
    ∀ (l : List ℕ) (v : ℕ),
      (checkedCore cap radix v 0 l).2.2 =
        (l.takeWhile (fun c => (to_digit radix c).isSome)).length ∧
      (checkedCore cap radix v 0 l).2.1 ≤ (checkedCore cap radix v 0 l).2.2 ∧
      natFold radix v (l.takeWhile (fun c => (to_digit radix c).isSome)) =
        (checkedCore cap radix v 0 l).1 * radix ^ (checkedCore cap radix v 0 l).2.1 +
          natFold radix 0
            ((l.takeWhile (fun c => (to_digit radix c).isSome)).drop
              ((checkedCore cap radix v 0 l).2.2 - (checkedCore cap radix v 0 l).2.1)) ∧
      natFold radix 0
          ((l.takeWhile (fun c => (to_digit radix c).isSome)).drop
            ((checkedCore cap radix v 0 l).2.2 - (checkedCore cap radix v 0 l).2.1)) <
        radix ^ (checkedCore cap radix v 0 l).2.1 ∧
      ((checkedCore cap radix v 0 l).2.1 = 0 →
        (checkedCore cap radix v 0 l).1 =
          natFold radix v (l.takeWhile (fun c => (to_digit radix c).isSome))) := by
  intro l
  induction l with
  | nil =>
    intro v
    simp [checkedCore, natFold]
  | cons c tl ih =>
    intro v
    cases hd : to_digit radix c with
    | none =>
      have htw : (c :: tl).takeWhile (fun c => (to_digit radix c).isSome) = [] := by
        rw [List.takeWhile_cons]
        simp [hd]
      rw [htw]
      have hcc : checkedCore cap radix v 0 (c :: tl) = (v, 0, 0) := by
        simp [checkedCore, hd]
      rw [hcc]
      simp [natFold]
    | some d =>
      have htw : (c :: tl).takeWhile (fun c => (to_digit radix c).isSome) =
          c :: tl.takeWhile (fun c => (to_digit radix c).isSome) := by
        rw [List.takeWhile_cons]
        simp [hd]
      rw [htw]
      have hvalid : ∀ x ∈ c :: tl.takeWhile (fun c => (to_digit radix c).isSome),
          dval radix x < radix := by
        intro x hx
        rcases List.mem_cons.mp hx with hx | hx
        · subst hx
          rw [dval_eq hd]
          exact to_digit_lt hd
        · have hsat := mem_takeWhile_sat _ _ x hx
          obtain ⟨dx, hdx⟩ := Option.isSome_iff_exists.mp hsat
          rw [dval_eq hdx]
          exact to_digit_lt hdx
      by_cases habs : v * radix + d < cap
      · -- The digit is absorbed into the accumulator.
        have hcc : checkedCore cap radix v 0 (c :: tl) =
            ((checkedCore cap radix (v * radix + d) 0 tl).1,
             (checkedCore cap radix (v * radix + d) 0 tl).2.1,
             (checkedCore cap radix (v * radix + d) 0 tl).2.2 + 1) := by
          simp only [checkedCore, hd]
          rw [if_pos ⟨by trivial, habs⟩]
        have hc1 : (checkedCore cap radix v 0 (c :: tl)).1 =
            (checkedCore cap radix (v * radix + d) 0 tl).1 := by rw [hcc]
        have hc2 : (checkedCore cap radix v 0 (c :: tl)).2.1 =
            (checkedCore cap radix (v * radix + d) 0 tl).2.1 := by rw [hcc]
        have hc3 : (checkedCore cap radix v 0 (c :: tl)).2.2 =
            (checkedCore cap radix (v * radix + d) 0 tl).2.2 + 1 := by rw [hcc]
        obtain ⟨ih1, ih2, ih3, ih4, ih5⟩ := ih (v * radix + d)
        rw [hc1, hc2, hc3]
        have hfoldstep : natFold radix v
            (c :: tl.takeWhile (fun c => (to_digit radix c).isSome)) =
            natFold radix (v * radix + d)
              (tl.takeWhile (fun c => (to_digit radix c).isSome)) := by
          show natFold radix (v * radix + dval radix c)
            (tl.takeWhile (fun c => (to_digit radix c).isSome)) = _
          rw [dval_eq hd]
        have hdrop : ∀ k : ℕ,
            (c :: tl.takeWhile (fun c => (to_digit radix c).isSome)).drop (k + 1) =
              (tl.takeWhile (fun c => (to_digit radix c).isSome)).drop k := by
          intro k
          rfl
        have hsub : (checkedCore cap radix (v * radix + d) 0 tl).2.2 + 1 -
            (checkedCore cap radix (v * radix + d) 0 tl).2.1 =
            ((checkedCore cap radix (v * radix + d) 0 tl).2.2 -
              (checkedCore cap radix (v * radix + d) 0 tl).2.1) + 1 := by
          omega
        refine ⟨?_, by omega, ?_, ?_, ?_⟩
        · simp only [List.length_cons]
          omega
        · rw [hfoldstep, hsub, hdrop]
          exact ih3
        · rw [hsub, hdrop]
          exact ih4
        · intro ht0
          rw [hfoldstep]
          exact ih5 ht0
      · -- The digit cannot be absorbed: truncation starts here.
        have hcc : checkedCore cap radix v 0 (c :: tl) =
            ((checkedCore cap radix v 1 tl).1,
             (checkedCore cap radix v 1 tl).2.1,
             (checkedCore cap radix v 1 tl).2.2 + 1) := by
          simp only [checkedCore, hd]
          rw [if_neg (by intro hcon; exact habs hcon.2)]
        have htr := checkedCore_trunc cap radix tl v 1 le_rfl
        rw [htr] at hcc
        have hc1 : (checkedCore cap radix v 0 (c :: tl)).1 = v := by rw [hcc]
        have hc2 : (checkedCore cap radix v 0 (c :: tl)).2.1 =
            1 + (tl.takeWhile (fun c => (to_digit radix c).isSome)).length := by
          rw [hcc]
        have hc3 : (checkedCore cap radix v 0 (c :: tl)).2.2 =
            (tl.takeWhile (fun c => (to_digit radix c).isSome)).length + 1 := by
          rw [hcc]
        rw [hc1, hc2, hc3]
        have hlen : (c :: tl.takeWhile (fun c => (to_digit radix c).isSome)).length =
            1 + (tl.takeWhile (fun c => (to_digit radix c).isSome)).length := by
          simp only [List.length_cons]
          omega
        refine ⟨by omega, by omega, ?_, ?_, ?_⟩
        · have hdrop0 : (tl.takeWhile (fun c => (to_digit radix c).isSome)).length + 1 -
              (1 + (tl.takeWhile (fun c => (to_digit radix c).isSome)).length) = 0 := by
            omega
          rw [hdrop0, List.drop_zero]
          rw [natFold_split radix
            (c :: tl.takeWhile (fun c => (to_digit radix c).isSome)) v, hlen]
        · have hdrop0 : (tl.takeWhile (fun c => (to_digit radix c).isSome)).length + 1 -
              (1 + (tl.takeWhile (fun c => (to_digit radix c).isSome)).length) = 0 := by
            omega
          rw [hdrop0, List.drop_zero]
          have := natFold_lt radix hr hvalid
          rw [hlen] at this
          exact this
        · intro ht0
          omega

/-! Dot-elision and fraction-length helpers. -/

theorem dval_48 (radix : ℕ) : dval radix 48 = 0 := by
  by_cases h : 1 ≤ radix
  · rw [dval, to_digit_48 h]
    rfl
  · have h0 : radix = 0 := by omega
    subst h0
    rfl

theorem elideDot_all {l : List ℕ} (h : ∀ c ∈ l, c ≠ 46) : elideDot l = l := by
  induction l with
  | nil => rfl
  | cons c tl ih =>
    have hc : c ≠ 46 := h c (by simp)
    show List.filter _ (c :: tl) = c :: tl
    rw [List.filter_cons, if_pos (decide_eq_true hc)]
    have := ih (fun x hx => h x (by simp [hx]))
    rw [show List.filter (fun c => decide (c ≠ 46)) tl = elideDot tl from rfl, this]

theorem elideDot_append (l1 l2 : List ℕ) :
    elideDot (l1 ++ l2) = elideDot l1 ++ elideDot l2 := by
  unfold elideDot
  exact List.filter_append _ _

theorem elideDot_dot_cons (l : List ℕ) : elideDot (46 :: l) = elideDot l := by
  show List.filter _ (46 :: l) = List.filter _ l
  rw [List.filter_cons, if_neg (by simp)]

theorem dropWhile_all {p : ℕ → Bool} {l : List ℕ} (h : ∀ c ∈ l, p c = true) :
    l.dropWhile p = [] := by
  induction l with
  | nil => rfl
  | cons c tl ih =>
    rw [List.dropWhile_cons_of_pos (h c (by simp))]
    exact ih (fun x hx => h x (by simp [hx]))

theorem dropWhile_append_all {p : ℕ → Bool} {l1 : List ℕ} (l2 : List ℕ)
    (h : ∀ c ∈ l1, p c = true) :
    (l1 ++ l2).dropWhile p = l2.dropWhile p := by
  induction l1 with
  | nil => rfl
  | cons c tl ih =>
    rw [List.cons_append, List.dropWhile_cons_of_pos (h c (by simp))]
    exact ih (fun x hx => h x (by simp [hx]))

theorem fracLen_nodot {l : List ℕ} (h : ∀ c ∈ l, c ≠ 46) : fracLen l = 0 := by
  unfold fracLen
  rw [dropWhile_all (fun c hc => decide_eq_true (h c hc))]
  rfl

theorem fracLen_append_dot {l1 : List ℕ} (l2 : List ℕ) (h : ∀ c ∈ l1, c ≠ 46) :
    fracLen (l1 ++ 46 :: l2) = l2.length := by
  unfold fracLen
  rw [dropWhile_append_all (46 :: l2) (fun c hc => decide_eq_true (h c hc))]
  rw [List.dropWhile_cons_of_neg (by simp)]
  rfl

theorem length_takeWhile_le (p : ℕ → Bool) (l : List ℕ) :
    (l.takeWhile p).length ≤ l.length := by
  conv_rhs => rw [← tw_append_dw p l]
  rw [List.length_append]
  omega

theorem length_dropWhile_le (p : ℕ → Bool) (l : List ℕ) :
    (l.dropWhile p).length ≤ l.length := by
  conv_rhs => rw [← tw_append_dw p l]
  rw [List.length_append]
  omega

theorem sat31_eq {n : ℕ} (h : n < 2 ^ 31) : sat31 n = (n : ℤ) := by
  simp only [sat31]
  omega

/-! Branch-wise accounting for parse_mantissa.  In each branch the
parsed mantissa m, dot shift ds, end position p and truncation flag t
satisfy: ds = f - u for the number f of consumed fractional digits and
some u ≥ 0 with u = 0 whenever t is false, and the exact digit value D
of the consumed bytes (dot elided) satisfies
m * radix^u ≤ D < m * radix^u + radix^u. -/

theorem pm_core_nofrac (cap radix : ℕ) (bytes : List ℕ) (hr : 2 ≤ radix)
    (hlen : bytes.length < 2 ^ 31)
    (hfrac : ¬ (((bytes.dropWhile (fun c => c = 48)).drop
        (checkedCore cap radix 0 0 (bytes.dropWhile (fun c => c = 48))).2.2).head? =
        some 46)) :
    ∃ u : ℕ,
      (parse_mantissa cap radix bytes).2.1 =
        (fracLen (bytes.take (parse_mantissa cap radix bytes).2.2.1) : ℤ) - (u : ℤ) ∧
      (parse_mantissa cap radix bytes).1 * radix ^ u ≤
        natFold radix 0 (elideDot (bytes.take (parse_mantissa cap radix bytes).2.2.1)) ∧
      natFold radix 0 (elideDot (bytes.take (parse_mantissa cap radix bytes).2.2.1)) <
        (parse_mantissa cap radix bytes).1 * radix ^ u + radix ^ u ∧
      ((parse_mantissa cap radix bytes).2.2.2 = false → u = 0) := by
  have hr1 : 1 ≤ radix := by omega
  have hv : parse_mantissa cap radix bytes =
      ((checkedCore cap radix 0 0 (bytes.dropWhile (fun c => c = 48))).1,
       -sat31 (checkedCore cap radix 0 0 (bytes.dropWhile (fun c => c = 48))).2.1,
       (bytes.takeWhile (fun c => c = 48)).length +
         (checkedCore cap radix 0 0 (bytes.dropWhile (fun c => c = 48))).2.2,
       decide ((checkedCore cap radix 0 0 (bytes.dropWhile (fun c => c = 48))).2.1 ≠ 0)) := by
    simp only [parse_mantissa]
    rw [if_neg (fun hcon => hfrac hcon.1), if_neg hfrac]
  obtain ⟨s11, s12, s13, s14, s15⟩ :=
    checkedCore_spec cap radix hr1 (bytes.dropWhile (fun c => c = 48)) 0
  set zs := bytes.takeWhile (fun c => c = 48) with hzs
  set rest := bytes.dropWhile (fun c => c = 48) with hrest
  set cc := checkedCore cap radix 0 0 rest with hcc
  set dpI := rest.takeWhile (fun c => (to_digit radix c).isSome) with hdpI
  have hb : bytes = zs ++ rest := by
    rw [hzs, hrest]
    exact (tw_append_dw _ _).symm
  have hlsplit : zs.length + rest.length = bytes.length := by
    have h := congrArg List.length hb
    rw [List.length_append] at h
    omega
  have hn1 : cc.2.2 = dpI.length := s11
  have hn1len : dpI.length ≤ rest.length := by
    rw [hdpI]
    exact length_takeWhile_le _ _
  have ht1lt : cc.2.1 < 2 ^ 31 := by
    have := s12
    omega
  have htake : bytes.take (zs.length + cc.2.2) = zs ++ dpI := by
    conv_lhs => rw [hb]
    rw [take_append_len, hn1, hdpI, take_takeWhile_len]
  have hzs48 : ∀ c ∈ zs, c = 48 := by
    intro c hc
    rw [hzs] at hc
    exact of_decide_eq_true (mem_takeWhile_sat _ bytes c hc)
  have hne46 : ∀ c ∈ zs ++ dpI, c ≠ 46 := by
    intro c hc
    rcases List.mem_append.mp hc with hc | hc
    · rw [hzs48 c hc]
      omega
    · rw [hdpI] at hc
      exact valid_ne46 (mem_takeWhile_sat _ _ c hc)
  have helide : elideDot (zs ++ dpI) = zs ++ dpI := elideDot_all hne46
  have hfzero : fracLen (zs ++ dpI) = 0 := fracLen_nodot hne46
  have hD : natFold radix 0 (zs ++ dpI) = natFold radix 0 dpI := by
    rw [natFold_append]
    rw [natFold_zeros radix (fun c hc => by rw [hzs48 c hc]; exact dval_48 radix)]
  rw [hv]
  refine ⟨cc.2.1, ?_, ?_, ?_, ?_⟩
  · show -sat31 cc.2.1 =
      (fracLen (bytes.take (zs.length + cc.2.2)) : ℤ) - (cc.2.1 : ℤ)
    rw [htake, hfzero, sat31_eq ht1lt]
    push_cast
    ring
  · show cc.1 * radix ^ cc.2.1 ≤
      natFold radix 0 (elideDot (bytes.take (zs.length + cc.2.2)))
    rw [htake, helide, hD, s13]
    exact Nat.le_add_right _ _
  · show natFold radix 0 (elideDot (bytes.take (zs.length + cc.2.2))) <
      cc.1 * radix ^ cc.2.1 + radix ^ cc.2.1
    rw [htake, helide, hD, s13]
    have := s14
    omega
  · intro h
    replace h : decide (cc.2.1 ≠ 0) = false := h
    simpa using h

theorem pm_core_skipfrac (cap radix : ℕ) (bytes : List ℕ) (hr : 2 ≤ radix)
    (hlen : bytes.length < 2 ^ 31)
    (hfrac : ((bytes.dropWhile (fun c => c = 48)).drop
        (checkedCore cap radix 0 0 (bytes.dropWhile (fun c => c = 48))).2.2).head? =
        some 46)
    (ht1 : (checkedCore cap radix 0 0 (bytes.dropWhile (fun c => c = 48))).2.1 ≠ 0) :
    ∃ u : ℕ,
      (parse_mantissa cap radix bytes).2.1 =
        (fracLen (bytes.take (parse_mantissa cap radix bytes).2.2.1) : ℤ) - (u : ℤ) ∧
      (parse_mantissa cap radix bytes).1 * radix ^ u ≤
        natFold radix 0 (elideDot (bytes.take (parse_mantissa cap radix bytes).2.2.1)) ∧
      natFold radix 0 (elideDot (bytes.take (parse_mantissa cap radix bytes).2.2.1)) <
        (parse_mantissa cap radix bytes).1 * radix ^ u + radix ^ u ∧
      ((parse_mantissa cap radix bytes).2.2.2 = false → u = 0) := by
  have hr1 : 1 ≤ radix := by omega
  have hv : parse_mantissa cap radix bytes =
      ((checkedCore cap radix 0 0 (bytes.dropWhile (fun c => c = 48))).1,
       -sat31 (checkedCore cap radix 0 0 (bytes.dropWhile (fun c => c = 48))).2.1,
       (bytes.takeWhile (fun c => c = 48)).length +
         (checkedCore cap radix 0 0 (bytes.dropWhile (fun c => c = 48))).2.2 + 1 +
         (((bytes.dropWhile (fun c => c = 48)).drop
             (checkedCore cap radix 0 0 (bytes.dropWhile (fun c => c = 48))).2.2).tail.takeWhile
           (fun c => (to_digit radix c).isSome)).length,
       true) := by
    simp only [parse_mantissa]
    rw [if_neg (fun hcon => ht1 hcon.2), if_pos hfrac]
  obtain ⟨s11, s12, s13, s14, s15⟩ :=
    checkedCore_spec cap radix hr1 (bytes.dropWhile (fun c => c = 48)) 0
  set zs := bytes.takeWhile (fun c => c = 48) with hzs
  set rest := bytes.dropWhile (fun c => c = 48) with hrest
  set cc := checkedCore cap radix 0 0 rest with hcc
  set dpI := rest.takeWhile (fun c => (to_digit radix c).isSome) with hdpI
  have hb : bytes = zs ++ rest := by
    rw [hzs, hrest]
    exact (tw_append_dw _ _).symm
  have hlsplit : zs.length + rest.length = bytes.length := by
    have h := congrArg List.length hb
    rw [List.length_append] at h
    omega
  have hn1 : cc.2.2 = dpI.length := s11
  have hn1len : dpI.length ≤ rest.length := by
    rw [hdpI]
    exact length_takeWhile_le _ _
  have ht1lt : cc.2.1 < 2 ^ 31 := by
    have := s12
    omega
  -- Split the remainder after the integral digits at the dot.
  have hdw : rest.drop cc.2.2 = rest.dropWhile (fun c => (to_digit radix c).isSome) := by
    rw [hn1, hdpI]
    exact drop_takeWhile_len _ _
  obtain ⟨F, hF⟩ : ∃ F, rest.drop cc.2.2 = 46 :: F := by
    cases hA : rest.drop cc.2.2 with
    | nil =>
      rw [hA] at hfrac
      simp at hfrac
    | cons a F =>
      rw [hA] at hfrac
      simp at hfrac
      exact ⟨F, by rw [hfrac]⟩
  set dpS := F.takeWhile (fun c => (to_digit radix c).isSome) with hdpS
  have hrestsplit : rest = dpI ++ 46 :: F := by
    conv_lhs => rw [← tw_append_dw (fun c => (to_digit radix c).isSome) rest]
    rw [← hdpI, ← hdw, hF]
  have hFlen : F.length ≤ rest.length := by
    have h := congrArg List.length hrestsplit
    rw [List.length_append, List.length_cons] at h
    omega
  have hktail : (rest.drop cc.2.2).tail = F := by
    rw [hF]
    rfl
  have htake : bytes.take (zs.length + cc.2.2 + 1 + dpS.length) =
      zs ++ (dpI ++ 46 :: dpS) := by
    have harith : zs.length + cc.2.2 + 1 + dpS.length =
        zs.length + (cc.2.2 + 1 + dpS.length) := by omega
    rw [harith]
    conv_lhs => rw [hb]
    rw [take_append_len]
    refine congrArg (fun x => zs ++ x) ?_
    conv_lhs => rw [hrestsplit]
    have harith2 : cc.2.2 + 1 + dpS.length = dpI.length + (dpS.length + 1) := by
      rw [hn1]
      omega
    rw [harith2, take_append_len, List.take_succ_cons]
    refine congrArg (fun x => dpI ++ 46 :: x) ?_
    rw [hdpS]
    exact take_takeWhile_len _ _
  have hzs48 : ∀ c ∈ zs, c = 48 := by
    intro c hc
    rw [hzs] at hc
    exact of_decide_eq_true (mem_takeWhile_sat _ bytes c hc)
  have hne46I : ∀ c ∈ dpI, c ≠ 46 := by
    intro c hc
    rw [hdpI] at hc
    exact valid_ne46 (mem_takeWhile_sat _ _ c hc)
  have hne46S : ∀ c ∈ dpS, c ≠ 46 := by
    intro c hc
    rw [hdpS] at hc
    exact valid_ne46 (mem_takeWhile_sat _ _ c hc)
  have hne46 : ∀ c ∈ zs ++ dpI, c ≠ 46 := by
    intro c hc
    rcases List.mem_append.mp hc with hc | hc
    · rw [hzs48 c hc]
      omega
    · exact hne46I c hc
  have helide : elideDot (zs ++ (dpI ++ 46 :: dpS)) = (zs ++ dpI) ++ dpS := by
    rw [elideDot_append, elideDot_append, elideDot_dot_cons]
    rw [elideDot_all (fun c hc => hne46 c (List.mem_append.mpr (Or.inl hc)))]
    rw [elideDot_all hne46I, elideDot_all hne46S]
    rw [List.append_assoc]
  have hfk : fracLen (zs ++ (dpI ++ 46 :: dpS)) = dpS.length := by
    rw [← List.append_assoc]
    exact fracLen_append_dot dpS hne46
  have hDpref : natFold radix 0 (zs ++ dpI) = natFold radix 0 dpI := by
    rw [natFold_append]
    rw [natFold_zeros radix (fun c hc => by rw [hzs48 c hc]; exact dval_48 radix)]
  have hvalidS : ∀ c ∈ dpS, dval radix c < radix := by
    intro c hc
    rw [hdpS] at hc
    have hsat := mem_takeWhile_sat _ _ c hc
    obtain ⟨dx, hdx⟩ := Option.isSome_iff_exists.mp hsat
    rw [dval_eq hdx]
    exact to_digit_lt hdx
  have hSD : natFold radix 0 dpS < radix ^ dpS.length := natFold_lt radix hr1 hvalidS
  -- Assemble the digit value of the full consumed span.
  have hDfull : natFold radix 0 ((zs ++ dpI) ++ dpS) =
      (natFold radix 0 dpI) * radix ^ dpS.length + natFold radix 0 dpS := by
    rw [natFold_append, hDpref, natFold_split]
  rw [hv]
  refine ⟨cc.2.1 + dpS.length, ?_, ?_, ?_, ?_⟩
  · show -sat31 cc.2.1 =
      (fracLen (bytes.take (zs.length + cc.2.2 + 1 +
        ((rest.drop cc.2.2).tail.takeWhile (fun c => (to_digit radix c).isSome)).length)) : ℤ) -
      ((cc.2.1 + dpS.length : ℕ) : ℤ)
    rw [hktail, ← hdpS, htake, hfk, sat31_eq ht1lt]
    push_cast
    ring
  · show cc.1 * radix ^ (cc.2.1 + dpS.length) ≤
      natFold radix 0 (elideDot (bytes.take (zs.length + cc.2.2 + 1 +
        ((rest.drop cc.2.2).tail.takeWhile (fun c => (to_digit radix c).isSome)).length)))
    rw [hktail, ← hdpS, htake, helide, hDfull, s13]
    rw [pow_add]
    calc cc.1 * (radix ^ cc.2.1 * radix ^ dpS.length)
        = cc.1 * radix ^ cc.2.1 * radix ^ dpS.length := by ring
      _ ≤ (cc.1 * radix ^ cc.2.1 +
            natFold radix 0 (dpI.drop (cc.2.2 - cc.2.1))) * radix ^ dpS.length := by
          exact Nat.mul_le_mul_right _ (Nat.le_add_right _ _)
      _ ≤ (cc.1 * radix ^ cc.2.1 +
            natFold radix 0 (dpI.drop (cc.2.2 - cc.2.1))) * radix ^ dpS.length +
          natFold radix 0 dpS := Nat.le_add_right _ _
  · show natFold radix 0 (elideDot (bytes.take (zs.length + cc.2.2 + 1 +
        ((rest.drop cc.2.2).tail.takeWhile (fun c => (to_digit radix c).isSome)).length))) <
      cc.1 * radix ^ (cc.2.1 + dpS.length) + radix ^ (cc.2.1 + dpS.length)
    rw [hktail, ← hdpS, htake, helide, hDfull, s13, pow_add]
    have hT1 := s14
    -- (m*X + T1)*Y + SD < m*(X*Y) + X*Y  given T1 < X, SD < Y.
    have hstep : (natFold radix 0 (dpI.drop (cc.2.2 - cc.2.1))) * radix ^ dpS.length +
        natFold radix 0 dpS < radix ^ cc.2.1 * radix ^ dpS.length := by
      calc (natFold radix 0 (dpI.drop (cc.2.2 - cc.2.1))) * radix ^ dpS.length +
          natFold radix 0 dpS
          < (natFold radix 0 (dpI.drop (cc.2.2 - cc.2.1))) * radix ^ dpS.length +
            radix ^ dpS.length := by omega
        _ = (natFold radix 0 (dpI.drop (cc.2.2 - cc.2.1)) + 1) * radix ^ dpS.length := by
            ring
        _ ≤ radix ^ cc.2.1 * radix ^ dpS.length := by
            exact Nat.mul_le_mul_right _ (by omega)
    calc (cc.1 * radix ^ cc.2.1 +
          natFold radix 0 (dpI.drop (cc.2.2 - cc.2.1))) * radix ^ dpS.length +
        natFold radix 0 dpS
        = cc.1 * radix ^ cc.2.1 * radix ^ dpS.length +
          ((natFold radix 0 (dpI.drop (cc.2.2 - cc.2.1))) * radix ^ dpS.length +
            natFold radix 0 dpS) := by ring
      _ < cc.1 * radix ^ cc.2.1 * radix ^ dpS.length +
          radix ^ cc.2.1 * radix ^ dpS.length := by omega
      _ = cc.1 * (radix ^ cc.2.1 * radix ^ dpS.length) +
          radix ^ cc.2.1 * radix ^ dpS.length := by ring
  · intro h
    exact absurd h (by simp)

theorem pm_core_frac_nz (cap radix : ℕ) (bytes : List ℕ) (hr : 2 ≤ radix)
    (hlen : bytes.length < 2 ^ 31)
    (hfrac : ((bytes.dropWhile (fun c => c = 48)).drop
        (checkedCore cap radix 0 0 (bytes.dropWhile (fun c => c = 48))).2.2).head? =
        some 46)
    (ht1 : (checkedCore cap radix 0 0 (bytes.dropWhile (fun c => c = 48))).2.1 = 0)
    (hm1 : (checkedCore cap radix 0 0 (bytes.dropWhile (fun c => c = 48))).1 ≠ 0) :
    ∃ u : ℕ,
      (parse_mantissa cap radix bytes).2.1 =
        (fracLen (bytes.take (parse_mantissa cap radix bytes).2.2.1) : ℤ) - (u : ℤ) ∧
      (parse_mantissa cap radix bytes).1 * radix ^ u ≤
        natFold radix 0 (elideDot (bytes.take (parse_mantissa cap radix bytes).2.2.1)) ∧
      natFold radix 0 (elideDot (bytes.take (parse_mantissa cap radix bytes).2.2.1)) <
        (parse_mantissa cap radix bytes).1 * radix ^ u + radix ^ u ∧
      ((parse_mantissa cap radix bytes).2.2.2 = false → u = 0) := by
  have hr1 : 1 ≤ radix := by omega
  have hv : parse_mantissa cap radix bytes =
      ((checkedCore cap radix (checkedCore cap radix 0 0
          (bytes.dropWhile (fun c => c = 48))).1 0
          ((bytes.dropWhile (fun c => c = 48)).drop
            (checkedCore cap radix 0 0 (bytes.dropWhile (fun c => c = 48))).2.2).tail).1,
       sat31 (checkedCore cap radix (checkedCore cap radix 0 0
          (bytes.dropWhile (fun c => c = 48))).1 0
          ((bytes.dropWhile (fun c => c = 48)).drop
            (checkedCore cap radix 0 0 (bytes.dropWhile (fun c => c = 48))).2.2).tail).2.2 -
         sat31 (checkedCore cap radix (checkedCore cap radix 0 0
          (bytes.dropWhile (fun c => c = 48))).1 0
          ((bytes.dropWhile (fun c => c = 48)).drop
            (checkedCore cap radix 0 0 (bytes.dropWhile (fun c => c = 48))).2.2).tail).2.1,
       (bytes.takeWhile (fun c => c = 48)).length +
         (checkedCore cap radix 0 0 (bytes.dropWhile (fun c => c = 48))).2.2 + 1 +
         (checkedCore cap radix (checkedCore cap radix 0 0
          (bytes.dropWhile (fun c => c = 48))).1 0
          ((bytes.dropWhile (fun c => c = 48)).drop
            (checkedCore cap radix 0 0 (bytes.dropWhile (fun c => c = 48))).2.2).tail).2.2,
       decide ((checkedCore cap radix (checkedCore cap radix 0 0
          (bytes.dropWhile (fun c => c = 48))).1 0
          ((bytes.dropWhile (fun c => c = 48)).drop
            (checkedCore cap radix 0 0 (bytes.dropWhile (fun c => c = 48))).2.2).tail).2.1 ≠
          0)) := by
    simp only [parse_mantissa]
    rw [if_pos ⟨hfrac, ht1⟩, if_neg hm1]
  obtain ⟨s11, s12, s13, s14, s15⟩ :=
    checkedCore_spec cap radix hr1 (bytes.dropWhile (fun c => c = 48)) 0
  set zs := bytes.takeWhile (fun c => c = 48) with hzs
  set rest := bytes.dropWhile (fun c => c = 48) with hrest
  set cc := checkedCore cap radix 0 0 rest with hcc
  set dpI := rest.takeWhile (fun c => (to_digit radix c).isSome) with hdpI
  have hb : bytes = zs ++ rest := by
    rw [hzs, hrest]
    exact (tw_append_dw _ _).symm
  have hlsplit : zs.length + rest.length = bytes.length := by
    have h := congrArg List.length hb
    rw [List.length_append] at h
    omega
  have hn1 : cc.2.2 = dpI.length := s11
  have hn1len : dpI.length ≤ rest.length := by
    rw [hdpI]
    exact length_takeWhile_le _ _
  have hdw : rest.drop cc.2.2 = rest.dropWhile (fun c => (to_digit radix c).isSome) := by
    rw [hn1, hdpI]
    exact drop_takeWhile_len _ _
  obtain ⟨F, hF⟩ : ∃ F, rest.drop cc.2.2 = 46 :: F := by
    cases hA : rest.drop cc.2.2 with
    | nil =>
      rw [hA] at hfrac
      simp at hfrac
    | cons a F =>
      rw [hA] at hfrac
      simp at hfrac
      exact ⟨F, by rw [hfrac]⟩
  have hktail : (rest.drop cc.2.2).tail = F := by
    rw [hF]
    rfl
  rw [hv]
  rw [hktail]
  set cc2 := checkedCore cap radix cc.1 0 F with hcc2
  set dpF := F.takeWhile (fun c => (to_digit radix c).isSome) with hdpF
  obtain ⟨r11, r12, r13, r14, r15⟩ := checkedCore_spec cap radix hr1 F cc.1
  rw [← hcc2] at r11 r12 r13 r14 r15
  rw [← hdpF] at r11 r13 r14 r15
  have hrestsplit : rest = dpI ++ 46 :: F := by
    conv_lhs => rw [← tw_append_dw (fun c => (to_digit radix c).isSome) rest]
    rw [← hdpI, ← hdw, hF]
  have hFlen : F.length ≤ rest.length := by
    have h := congrArg List.length hrestsplit
    rw [List.length_append, List.length_cons] at h
    omega
  have hdpFlen : dpF.length ≤ F.length := by
    rw [hdpF]
    exact length_takeWhile_le _ _
  have hn2lt : cc2.2.2 < 2 ^ 31 := by
    rw [r11]
    omega
  have ht2lt : cc2.2.1 < 2 ^ 31 := by
    omega
  have htake : bytes.take (zs.length + cc.2.2 + 1 + cc2.2.2) =
      zs ++ (dpI ++ 46 :: dpF) := by
    have harith : zs.length + cc.2.2 + 1 + cc2.2.2 =
        zs.length + (cc.2.2 + 1 + cc2.2.2) := by omega
    rw [harith]
    conv_lhs => rw [hb]
    rw [take_append_len]
    refine congrArg (fun x => zs ++ x) ?_
    conv_lhs => rw [hrestsplit]
    have harith2 : cc.2.2 + 1 + cc2.2.2 = dpI.length + (cc2.2.2 + 1) := by
      rw [hn1]
      omega
    rw [harith2, take_append_len, List.take_succ_cons]
    refine congrArg (fun x => dpI ++ 46 :: x) ?_
    rw [r11, hdpF]
    exact take_takeWhile_len _ _
  have hzs48 : ∀ c ∈ zs, c = 48 := by
    intro c hc
    rw [hzs] at hc
    exact of_decide_eq_true (mem_takeWhile_sat _ bytes c hc)
  have hne46I : ∀ c ∈ dpI, c ≠ 46 := by
    intro c hc
    rw [hdpI] at hc
    exact valid_ne46 (mem_takeWhile_sat _ _ c hc)
  have hne46F : ∀ c ∈ dpF, c ≠ 46 := by
    intro c hc
    rw [hdpF] at hc
    exact valid_ne46 (mem_takeWhile_sat _ _ c hc)
  have hne46 : ∀ c ∈ zs ++ dpI, c ≠ 46 := by
    intro c hc
    rcases List.mem_append.mp hc with hc | hc
    · rw [hzs48 c hc]
      omega
    · exact hne46I c hc
  have helide : elideDot (zs ++ (dpI ++ 46 :: dpF)) = (zs ++ dpI) ++ dpF := by
    rw [elideDot_append, elideDot_append, elideDot_dot_cons]
    rw [elideDot_all (fun c hc => hne46 c (List.mem_append.mpr (Or.inl hc)))]
    rw [elideDot_all hne46I, elideDot_all hne46F]
    rw [List.append_assoc]
  have hfk : fracLen (zs ++ (dpI ++ 46 :: dpF)) = dpF.length := by
    rw [← List.append_assoc]
    exact fracLen_append_dot dpF hne46
  have hDpref : natFold radix 0 (zs ++ dpI) = natFold radix 0 dpI := by
    rw [natFold_append]
    rw [natFold_zeros radix (fun c hc => by rw [hzs48 c hc]; exact dval_48 radix)]
  have hDfull : natFold radix 0 ((zs ++ dpI) ++ dpF) = natFold radix cc.1 dpF := by
    rw [natFold_append, hDpref, ← s15 ht1]
  refine ⟨cc2.2.1, ?_, ?_, ?_, ?_⟩
  · show sat31 cc2.2.2 - sat31 cc2.2.1 =
      (fracLen (bytes.take (zs.length + cc.2.2 + 1 + cc2.2.2)) : ℤ) - (cc2.2.1 : ℤ)
    rw [htake, hfk, sat31_eq hn2lt, sat31_eq ht2lt, r11]
  · show cc2.1 * radix ^ cc2.2.1 ≤
      natFold radix 0 (elideDot (bytes.take (zs.length + cc.2.2 + 1 + cc2.2.2)))
    rw [htake, helide, hDfull, r13]
    exact Nat.le_add_right _ _
  · show natFold radix 0 (elideDot (bytes.take (zs.length + cc.2.2 + 1 + cc2.2.2))) <
      cc2.1 * radix ^ cc2.2.1 + radix ^ cc2.2.1
    rw [htake, helide, hDfull, r13]
    have := r14
    omega
  · intro h
    replace h : decide (cc2.2.1 ≠ 0) = false := h
    simpa using h

theorem pm_core_frac_z (cap radix : ℕ) (bytes : List ℕ) (hr : 2 ≤ radix)
    (hlen : bytes.length < 2 ^ 31)
    (hfrac : ((bytes.dropWhile (fun c => c = 48)).drop
        (checkedCore cap radix 0 0 (bytes.dropWhile (fun c => c = 48))).2.2).head? =
        some 46)
    (ht1 : (checkedCore cap radix 0 0 (bytes.dropWhile (fun c => c = 48))).2.1 = 0)
    (hm1 : (checkedCore cap radix 0 0 (bytes.dropWhile (fun c => c = 48))).1 = 0) :
    ∃ u : ℕ,
      (parse_mantissa cap radix bytes).2.1 =
        (fracLen (bytes.take (parse_mantissa cap radix bytes).2.2.1) : ℤ) - (u : ℤ) ∧
      (parse_mantissa cap radix bytes).1 * radix ^ u ≤
        natFold radix 0 (elideDot (bytes.take (parse_mantissa cap radix bytes).2.2.1)) ∧
      natFold radix 0 (elideDot (bytes.take (parse_mantissa cap radix bytes).2.2.1)) <
        (parse_mantissa cap radix bytes).1 * radix ^ u + radix ^ u ∧
      ((parse_mantissa cap radix bytes).2.2.2 = false → u = 0) := by
  have hr1 : 1 ≤ radix := by omega
  have hv : parse_mantissa cap radix bytes =
      ((checkedCore cap radix 0 0
          (((bytes.dropWhile (fun c => c = 48)).drop
            (checkedCore cap radix 0 0 (bytes.dropWhile (fun c => c = 48))).2.2).tail.drop
            (((bytes.dropWhile (fun c => c = 48)).drop
              (checkedCore cap radix 0 0
                (bytes.dropWhile (fun c => c = 48))).2.2).tail.takeWhile
              (fun c => c = 48)).length)).1,
       sat31 ((((bytes.dropWhile (fun c => c = 48)).drop
              (checkedCore cap radix 0 0
                (bytes.dropWhile (fun c => c = 48))).2.2).tail.takeWhile
              (fun c => c = 48)).length +
            (checkedCore cap radix 0 0
              (((bytes.dropWhile (fun c => c = 48)).drop
                (checkedCore cap radix 0 0 (bytes.dropWhile (fun c => c = 48))).2.2).tail.drop
                (((bytes.dropWhile (fun c => c = 48)).drop
                  (checkedCore cap radix 0 0
                    (bytes.dropWhile (fun c => c = 48))).2.2).tail.takeWhile
                  (fun c => c = 48)).length)).2.2) -
         sat31 (checkedCore cap radix 0 0
            (((bytes.dropWhile (fun c => c = 48)).drop
              (checkedCore cap radix 0 0 (bytes.dropWhile (fun c => c = 48))).2.2).tail.drop
              (((bytes.dropWhile (fun c => c = 48)).drop
                (checkedCore cap radix 0 0
                  (bytes.dropWhile (fun c => c = 48))).2.2).tail.takeWhile
                (fun c => c = 48)).length)).2.1,
       (bytes.takeWhile (fun c => c = 48)).length +
         (checkedCore cap radix 0 0 (bytes.dropWhile (fun c => c = 48))).2.2 + 1 +
         (((bytes.dropWhile (fun c => c = 48)).drop
            (checkedCore cap radix 0 0
              (bytes.dropWhile (fun c => c = 48))).2.2).tail.takeWhile
            (fun c => c = 48)).length +
         (checkedCore cap radix 0 0
            (((bytes.dropWhile (fun c => c = 48)).drop
              (checkedCore cap radix 0 0 (bytes.dropWhile (fun c => c = 48))).2.2).tail.drop
              (((bytes.dropWhile (fun c => c = 48)).drop
                (checkedCore cap radix 0 0
                  (bytes.dropWhile (fun c => c = 48))).2.2).tail.takeWhile
                (fun c => c = 48)).length)).2.2,
       decide ((checkedCore cap radix 0 0
            (((bytes.dropWhile (fun c => c = 48)).drop
              (checkedCore cap radix 0 0 (bytes.dropWhile (fun c => c = 48))).2.2).tail.drop
              (((bytes.dropWhile (fun c => c = 48)).drop
                (checkedCore cap radix 0 0
                  (bytes.dropWhile (fun c => c = 48))).2.2).tail.takeWhile
                (fun c => c = 48)).length)).2.1 ≠ 0)) := by
    simp only [parse_mantissa]
    rw [if_pos ⟨hfrac, ht1⟩, if_pos hm1]
  obtain ⟨s11, s12, s13, s14, s15⟩ :=
    checkedCore_spec cap radix hr1 (bytes.dropWhile (fun c => c = 48)) 0
  set zs := bytes.takeWhile (fun c => c = 48) with hzs
  set rest := bytes.dropWhile (fun c => c = 48) with hrest
  set cc := checkedCore cap radix 0 0 rest with hcc
  set dpI := rest.takeWhile (fun c => (to_digit radix c).isSome) with hdpI
  have hb : bytes = zs ++ rest := by
    rw [hzs, hrest]
    exact (tw_append_dw _ _).symm
  have hlsplit : zs.length + rest.length = bytes.length := by
    have h := congrArg List.length hb
    rw [List.length_append] at h
    omega
  have hn1 : cc.2.2 = dpI.length := s11
  have hn1len : dpI.length ≤ rest.length := by
    rw [hdpI]
    exact length_takeWhile_le _ _
  have hdw : rest.drop cc.2.2 = rest.dropWhile (fun c => (to_digit radix c).isSome) := by
    rw [hn1, hdpI]
    exact drop_takeWhile_len _ _
  obtain ⟨F, hF⟩ : ∃ F, rest.drop cc.2.2 = 46 :: F := by
    cases hA : rest.drop cc.2.2 with
    | nil =>
      rw [hA] at hfrac
      simp at hfrac
    | cons a F =>
      rw [hA] at hfrac
      simp at hfrac
      exact ⟨F, by rw [hfrac]⟩
  have hktail : (rest.drop cc.2.2).tail = F := by
    rw [hF]
    rfl
  rw [hv]
  rw [hktail]
  set zs2 := F.takeWhile (fun c => c = 48) with hzs2
  have hFdrop : F.drop zs2.length = F.dropWhile (fun c => c = 48) := by
    rw [hzs2]
    exact drop_takeWhile_len _ _
  rw [hFdrop]
  set F2 := F.dropWhile (fun c => c = 48) with hF2
  set cc2 := checkedCore cap radix 0 0 F2 with hcc2
  set dpF2 := F2.takeWhile (fun c => (to_digit radix c).isSome) with hdpF2
  obtain ⟨r11, r12, r13, r14, r15⟩ := checkedCore_spec cap radix hr1 F2 0
  rw [← hcc2] at r11 r12 r13 r14 r15
  rw [← hdpF2] at r11 r13 r14 r15
  have hrestsplit : rest = dpI ++ 46 :: F := by
    conv_lhs => rw [← tw_append_dw (fun c => (to_digit radix c).isSome) rest]
    rw [← hdpI, ← hdw, hF]
  have hFlen : F.length ≤ rest.length := by
    have h := congrArg List.length hrestsplit
    rw [List.length_append, List.length_cons] at h
    omega
  have hFsplit : F = zs2 ++ F2 := by
    rw [hzs2, hF2]
    exact (tw_append_dw _ _).symm
  have hFlsplit : zs2.length + F2.length = F.length := by
    have h := congrArg List.length hFsplit
    rw [List.length_append] at h
    omega
  have hdpF2len : dpF2.length ≤ F2.length := by
    rw [hdpF2]
    exact length_takeWhile_le _ _
  have hn2lt : zs2.length + cc2.2.2 < 2 ^ 31 := by
    rw [r11]
    omega
  have ht2lt : cc2.2.1 < 2 ^ 31 := by
    have := r12
    rw [r11] at this
    omega
  have htake : bytes.take (zs.length + cc.2.2 + 1 + zs2.length + cc2.2.2) =
      zs ++ (dpI ++ 46 :: (zs2 ++ dpF2)) := by
    have harith : zs.length + cc.2.2 + 1 + zs2.length + cc2.2.2 =
        zs.length + (cc.2.2 + 1 + (zs2.length + cc2.2.2)) := by omega
    rw [harith]
    conv_lhs => rw [hb]
    rw [take_append_len]
    refine congrArg (fun x => zs ++ x) ?_
    conv_lhs => rw [hrestsplit]
    have harith2 : cc.2.2 + 1 + (zs2.length + cc2.2.2) =
        dpI.length + ((zs2.length + cc2.2.2) + 1) := by
      rw [hn1]
      omega
    rw [harith2, take_append_len, List.take_succ_cons]
    refine congrArg (fun x => dpI ++ 46 :: x) ?_
    conv_lhs => rw [hFsplit]
    rw [take_append_len]
    refine congrArg (fun x => zs2 ++ x) ?_
    rw [r11, hdpF2]
    exact take_takeWhile_len _ _
  have hzs48 : ∀ c ∈ zs, c = 48 := by
    intro c hc
    rw [hzs] at hc
    exact of_decide_eq_true (mem_takeWhile_sat _ bytes c hc)
  have hzs248 : ∀ c ∈ zs2, c = 48 := by
    intro c hc
    rw [hzs2] at hc
    exact of_decide_eq_true (mem_takeWhile_sat _ F c hc)
  have hne46I : ∀ c ∈ dpI, c ≠ 46 := by
    intro c hc
    rw [hdpI] at hc
    exact valid_ne46 (mem_takeWhile_sat _ _ c hc)
  have hne46F : ∀ c ∈ dpF2, c ≠ 46 := by
    intro c hc
    rw [hdpF2] at hc
    exact valid_ne46 (mem_takeWhile_sat _ _ c hc)
  have hne46 : ∀ c ∈ zs ++ dpI, c ≠ 46 := by
    intro c hc
    rcases List.mem_append.mp hc with hc | hc
    · rw [hzs48 c hc]
      omega
    · exact hne46I c hc
  have hne46T : ∀ c ∈ zs2 ++ dpF2, c ≠ 46 := by
    intro c hc
    rcases List.mem_append.mp hc with hc | hc
    · rw [hzs248 c hc]
      omega
    · exact hne46F c hc
  have helide : elideDot (zs ++ (dpI ++ 46 :: (zs2 ++ dpF2))) =
      (zs ++ dpI) ++ (zs2 ++ dpF2) := by
    rw [elideDot_append, elideDot_append, elideDot_dot_cons]
    rw [elideDot_all (fun c hc => hne46 c (List.mem_append.mpr (Or.inl hc)))]
    rw [elideDot_all hne46I, elideDot_all hne46T]
    rw [List.append_assoc]
  have hfk : fracLen (zs ++ (dpI ++ 46 :: (zs2 ++ dpF2))) =
      zs2.length + dpF2.length := by
    rw [← List.append_assoc]
    rw [fracLen_append_dot (zs2 ++ dpF2) hne46]
    exact List.length_append _ _
  have hDpref : natFold radix 0 (zs ++ dpI) = 0 := by
    rw [natFold_append]
    rw [natFold_zeros radix (fun c hc => by rw [hzs48 c hc]; exact dval_48 radix)]
    rw [← s15 ht1, hm1]
  have hDfull : natFold radix 0 ((zs ++ dpI) ++ (zs2 ++ dpF2)) =
      natFold radix 0 dpF2 := by
    rw [natFold_append, hDpref, natFold_append]
    rw [natFold_zeros radix (fun c hc => by rw [hzs248 c hc]; exact dval_48 radix)]
  refine ⟨cc2.2.1, ?_, ?_, ?_, ?_⟩
  · show sat31 (zs2.length + cc2.2.2) - sat31 cc2.2.1 =
      (fracLen (bytes.take (zs.length + cc.2.2 + 1 + zs2.length + cc2.2.2)) : ℤ) -
      (cc2.2.1 : ℤ)
    rw [htake, hfk, sat31_eq hn2lt, sat31_eq ht2lt, r11]
  · show cc2.1 * radix ^ cc2.2.1 ≤
      natFold radix 0 (elideDot (bytes.take (zs.length + cc.2.2 + 1 + zs2.length + cc2.2.2)))
    rw [htake, helide, hDfull, r13]
    exact Nat.le_add_right _ _
  · show natFold radix 0
        (elideDot (bytes.take (zs.length + cc.2.2 + 1 + zs2.length + cc2.2.2))) <
      cc2.1 * radix ^ cc2.2.1 + radix ^ cc2.2.1
    rw [htake, helide, hDfull, r13]
    have := r14
    omega
  · intro h
    replace h : decide (cc2.2.1 ≠ 0) = false := h
    simpa using h

/-- The branch-wise accounts combined: for every input, parse_mantissa's
result (m, ds, p, t) admits a truncation count u with ds = f - u (f the
number of consumed fractional digits), the exact digit value D of the
consumed bytes (dot elided) lies in [m * radix^u, m * radix^u + radix^u),
and u = 0 whenever t is false. -/
theorem parse_mantissa_core (cap radix : ℕ) (bytes : List ℕ) (hr : 2 ≤ radix)
    (hlen : bytes.length < 2 ^ 31) :
    ∃ u : ℕ,
      (parse_mantissa cap radix bytes).2.1 =
        (fracLen (bytes.take (parse_mantissa cap radix bytes).2.2.1) : ℤ) - (u : ℤ) ∧
      (parse_mantissa cap radix bytes).1 * radix ^ u ≤
        natFold radix 0 (elideDot (bytes.take (parse_mantissa cap radix bytes).2.2.1)) ∧
      natFold radix 0 (elideDot (bytes.take (parse_mantissa cap radix bytes).2.2.1)) <
        (parse_mantissa cap radix bytes).1 * radix ^ u + radix ^ u ∧
      ((parse_mantissa cap radix bytes).2.2.2 = false → u = 0) := by
  by_cases hfrac : ((bytes.dropWhile (fun c => c = 48)).drop
      (checkedCore cap radix 0 0 (bytes.dropWhile (fun c => c = 48))).2.2).head? =
      some 46
  · by_cases ht1 : (checkedCore cap radix 0 0 (bytes.dropWhile (fun c => c = 48))).2.1 = 0
    · by_cases hm1 : (checkedCore cap radix 0 0 (bytes.dropWhile (fun c => c = 48))).1 = 0
      · exact pm_core_frac_z cap radix bytes hr hlen hfrac ht1 hm1
      · exact pm_core_frac_nz cap radix bytes hr hlen hfrac ht1 hm1
    · exact pm_core_skipfrac cap radix bytes hr hlen hfrac ht1
  · exact pm_core_nofrac cap radix bytes hr hlen hfrac

/-- C2 counterexample: parsing "18446744073709551616" (2^64) with the u64
cap truncates one digit (u = 1, dot shift -1), and the truncation error of
the effective value against mantissa * radix^(-dot_shift) is 6 units in
the last mantissa place's scale 10^1 = 10: 2 * 6 > 10, so the error
exceeds one-half ulp of the mantissa word, refuting the claim's half-ulp
bound (the code only guarantees strictly less than one ulp). -/
theorem C2_counterexample :
    parse_mantissa (2 ^ 64) 10
        [49, 56, 52, 52, 54, 55, 52, 52, 48, 55, 51, 55, 48, 57, 53, 53, 49, 54, 49, 54] =
      (1844674407370955161, -1, 20, true) ∧
    2 * (natFold 10 0 (elideDot
          (([49, 56, 52, 52, 54, 55, 52, 52, 48, 55, 51, 55, 48, 57, 53, 53, 49, 54, 49,
            54] : List ℕ).take 20)) -
        1844674407370955161 * 10 ^ 1) >
      10 ^ 1 := by
  decide

/-- C2 (amended): for every radix >= 2 and byte string, parse_mantissa's
result (m, ds, p, t) admits a truncated-digit count u with
ds = fracLen - u; if t is false the mantissa m equals the exact digit
value D of the consumed bytes with the dot elided, and the effective
value D * radix^(-fracLen) equals m * radix^(-ds) exactly; in general the
effective value overshoots m * radix^(-ds) by a nonnegative error that is
strictly less than one ulp radix^(-ds) of the mantissa word — not at most
one-half ulp as claimed. -/
theorem C2_amended (cap radix : ℕ) (bytes : List ℕ) (hr : 2 ≤ radix)
    (hlen : bytes.length < 2 ^ 31) :
    ∃ u : ℕ,
      (parse_mantissa cap radix bytes).2.1 =
        (fracLen (bytes.take (parse_mantissa cap radix bytes).2.2.1) : ℤ) - (u : ℤ) ∧
      ((parse_mantissa cap radix bytes).2.2.2 = false →
        (parse_mantissa cap radix bytes).1 =
          natFold radix 0 (elideDot (bytes.take (parse_mantissa cap radix bytes).2.2.1))) ∧
      (0 : ℚ) ≤
        (natFold radix 0 (elideDot (bytes.take (parse_mantissa cap radix bytes).2.2.1)) : ℚ) *
            (radix : ℚ) ^
              (-(fracLen (bytes.take (parse_mantissa cap radix bytes).2.2.1) : ℤ)) -
          ((parse_mantissa cap radix bytes).1 : ℚ) *
            (radix : ℚ) ^ (-(parse_mantissa cap radix bytes).2.1) ∧
      (natFold radix 0 (elideDot (bytes.take (parse_mantissa cap radix bytes).2.2.1)) : ℚ) *
            (radix : ℚ) ^
              (-(fracLen (bytes.take (parse_mantissa cap radix bytes).2.2.1) : ℤ)) -
          ((parse_mantissa cap radix bytes).1 : ℚ) *
            (radix : ℚ) ^ (-(parse_mantissa cap radix bytes).2.1) <
        (radix : ℚ) ^ (-(parse_mantissa cap radix bytes).2.1) ∧
      ((parse_mantissa cap radix bytes).2.2.2 = false →
        (natFold radix 0 (elideDot (bytes.take (parse_mantissa cap radix bytes).2.2.1)) : ℚ) *
            (radix : ℚ) ^
              (-(fracLen (bytes.take (parse_mantissa cap radix bytes).2.2.1) : ℤ)) =
          ((parse_mantissa cap radix bytes).1 : ℚ) *
            (radix : ℚ) ^ (-(parse_mantissa cap radix bytes).2.1)) := by
  obtain ⟨u, h1, h2, h3, h4⟩ := parse_mantissa_core cap radix bytes hr hlen
  set m := (parse_mantissa cap radix bytes).1 with hm
  set ds := (parse_mantissa cap radix bytes).2.1 with hds
  set D := natFold radix 0 (elideDot (bytes.take (parse_mantissa cap radix bytes).2.2.1))
    with hDdef
  set f := fracLen (bytes.take (parse_mantissa cap radix bytes).2.2.1) with hfdef
  have hx0 : (0 : ℚ) < (radix : ℚ) := by
    exact_mod_cast (by omega : 0 < radix)
  have hxne : (radix : ℚ) ≠ 0 := ne_of_gt hx0
  have hnegds : -ds = (u : ℤ) + (-(f : ℤ)) := by omega
  have hkey : (radix : ℚ) ^ (-ds) = ((radix ^ u : ℕ) : ℚ) * (radix : ℚ) ^ (-(f : ℤ)) := by
    rw [hnegds, zpow_add₀ hxne, zpow_natCast]
    push_cast
    ring
  have happrox : (m : ℚ) * (radix : ℚ) ^ (-ds) =
      ((m * radix ^ u : ℕ) : ℚ) * (radix : ℚ) ^ (-(f : ℤ)) := by
    rw [hkey]
    push_cast
    ring
  have hzpos : (0 : ℚ) < (radix : ℚ) ^ (-(f : ℤ)) := by positivity
  refine ⟨u, h1, ?_, ?_, ?_, ?_⟩
  · intro htf
    have hu0 := h4 htf
    rw [hu0, pow_zero, mul_one] at h2 h3
    omega
  · rw [happrox, ← sub_mul]
    apply mul_nonneg _ (le_of_lt hzpos)
    have hle : ((m * radix ^ u : ℕ) : ℚ) ≤ (D : ℚ) := by
      exact_mod_cast h2
    linarith
  · rw [happrox, ← sub_mul, hkey]
    apply mul_lt_mul_of_pos_right _ hzpos
    have hlt : (D : ℚ) < ((m * radix ^ u : ℕ) : ℚ) + ((radix ^ u : ℕ) : ℚ) := by
      exact_mod_cast h3
    linarith
  · intro htf
    have hu0 := h4 htf
    have hDm : m = D := by
      rw [hu0, pow_zero, mul_one] at h2 h3
      omega
    have hdsf : ds = (f : ℤ) := by
      rw [h1, hu0]
      push_cast
      ring
    rw [hDm, hdsf]

/-- C2 witness: the amended invariant instantiated on "1.5" in radix 10
with the u64 cap. -/
theorem C2_witness :
    2 ≤ 10 ∧ ([49, 46, 53] : List ℕ).length < 2 ^ 31 ∧
    (∃ u : ℕ,
      (parse_mantissa (2 ^ 64) 10 [49, 46, 53]).2.1 =
        (fracLen (([49, 46, 53] : List ℕ).take
          (parse_mantissa (2 ^ 64) 10 [49, 46, 53]).2.2.1) : ℤ) - (u : ℤ) ∧
      ((parse_mantissa (2 ^ 64) 10 [49, 46, 53]).2.2.2 = false →
        (parse_mantissa (2 ^ 64) 10 [49, 46, 53]).1 =
          natFold 10 0 (elideDot (([49, 46, 53] : List ℕ).take
            (parse_mantissa (2 ^ 64) 10 [49, 46, 53]).2.2.1))) ∧
      (0 : ℚ) ≤
        (natFold 10 0 (elideDot (([49, 46, 53] : List ℕ).take
            (parse_mantissa (2 ^ 64) 10 [49, 46, 53]).2.2.1)) : ℚ) *
            (10 : ℚ) ^
              (-(fracLen (([49, 46, 53] : List ℕ).take
                (parse_mantissa (2 ^ 64) 10 [49, 46, 53]).2.2.1) : ℤ)) -
          ((parse_mantissa (2 ^ 64) 10 [49, 46, 53]).1 : ℚ) *
            (10 : ℚ) ^ (-(parse_mantissa (2 ^ 64) 10 [49, 46, 53]).2.1) ∧
      (natFold 10 0 (elideDot (([49, 46, 53] : List ℕ).take
            (parse_mantissa (2 ^ 64) 10 [49, 46, 53]).2.2.1)) : ℚ) *
            (10 : ℚ) ^
              (-(fracLen (([49, 46, 53] : List ℕ).take
                (parse_mantissa (2 ^ 64) 10 [49, 46, 53]).2.2.1) : ℤ)) -
          ((parse_mantissa (2 ^ 64) 10 [49, 46, 53]).1 : ℚ) *
            (10 : ℚ) ^ (-(parse_mantissa (2 ^ 64) 10 [49, 46, 53]).2.1) <
        (10 : ℚ) ^ (-(parse_mantissa (2 ^ 64) 10 [49, 46, 53]).2.1) ∧
      ((parse_mantissa (2 ^ 64) 10 [49, 46, 53]).2.2.2 = false →
        (natFold 10 0 (elideDot (([49, 46, 53] : List ℕ).take
            (parse_mantissa (2 ^ 64) 10 [49, 46, 53]).2.2.1)) : ℚ) *
            (10 : ℚ) ^
              (-(fracLen (([49, 46, 53] : List ℕ).take
                (parse_mantissa (2 ^ 64) 10 [49, 46, 53]).2.2.1) : ℤ)) =
          ((parse_mantissa (2 ^ 64) 10 [49, 46, 53]).1 : ℚ) *
            (10 : ℚ) ^ (-(parse_mantissa (2 ^ 64) 10 [49, 46, 53]).2.1))) :=
  ⟨by norm_num, by decide,
   C2_amended (2 ^ 64) 10 [49, 46, 53] (by norm_num) (by decide)⟩

end RustLexical
